import Mathlib


/-!
Verification of the circuits core event bus (`src/circuits/core.py`).

The Python kernel is shallowly embedded: the channel index
(`_channels`, a `defaultdict(list)`) is an insertion-ordered
association list, the `_handlers` / `_components` / `_hidden` /
`_ticks` sets are insertion-ordered duplicate-free lists, and handler
bodies — arbitrary user callables — are modelled by a behaviour
oracle mapping a handler descriptor and the event to its outcome
(return value, signal, or other exception).  The component tree
(`register` / `unregister` / `_registerHidden`) is a state machine
over a heap of components indexed by natural numbers, with fuel for
the loops whose termination Python leaves implicit.
-/

/-- Python values as far as dispatch needs them: `None`, booleans,
ints and strings. -/
inductive PyVal where
  | none
  | bool (b : Bool)
  | int (n : Int)
  | str (s : String)
deriving DecidableEq, Repr

/-- The guard of core.py line 553, `r is not None and r`: Python
truthiness together with the `is not None` test. -/
def PyVal.truthyNN : PyVal → Bool
  | .none => false
  | .bool b => b
  | .int n => n != 0
  | .str s => s != ""

/-- A handler descriptor: the attributes the `handler` decorator
(core.py 192-244) stores on the callable.  `hid` models object
identity, `passEvent` is `_passEvent`. -/
structure HandlerD where
  hid : Nat
  filter : Bool := false
  channels : List String := []
  target : Option String := none
  passEvent : Bool := false
deriving DecidableEq, Repr

/-- A dispatch target: absent, a plain string, or a Component — all
`send` reads from a Component target is its `channel` attribute
(core.py 532-533), so that attribute is what the constructor holds. -/
inductive PTarget where
  | noneT
  | str (s : String)
  | comp (channel : Option String)
deriving DecidableEq, Repr

/-- An event value (class `Event`, core.py 37-105): name, positional
payload, and the `channel` / `target` fields set by the dispatcher. -/
structure EventV where
  name : String
  args : List PyVal := []
  channel : Option String := none
  target : PTarget := .noneT
deriving DecidableEq, Repr

abbrev Bucket := List HandlerD

/-- The channel index `_channels`: a `defaultdict(list)` modelled as
an association list; CPython iteration order is modelled as insertion
order. -/
abbrev Chans := List (String × Bucket)

def dLook : Chans → String → Option Bucket
  | [], _ => Option.none
  | kv :: d, k => if kv.1 = k then some kv.2 else dLook d k

def dHas (d : Chans) (k : String) : Bool := (dLook d k).isSome

def dGet (d : Chans) (k : String) : Bucket := (dLook d k).getD []

/-- In-place update of an existing key. -/
def dSet (d : Chans) (k : String) (b : Bucket) : Chans :=
  d.map (fun kv => if kv.1 = k then (k, b) else kv)

def dDel (d : Chans) (k : String) : Chans := d.filter (fun kv => kv.1 != k)

/-- A `defaultdict(list)` read: return the bucket, materialising an
empty one (appended) when the key is missing. -/
def dGetD (d : Chans) (k : String) : Bucket × Chans :=
  match dLook d k with
  | some b => (b, d)
  | Option.none => ([], d ++ [(k, [])])

/-- `bucket.sort(key=lambda x: not x.filter)` (core.py 441): Python's
sort is stable, and on this Boolean key a stable sort is exactly the
stable partition that puts filters first. -/
def sortF (b : Bucket) : Bucket :=
  b.filter (fun h => h.filter) ++ b.filter (fun h => !h.filter)

/-- Bucket-level part of `Manager._add` (core.py 435-443). -/
def addD (d : Chans) (h : HandlerD) (key : String) : Chans :=
  if dHas d key then
    if h ∈ dGet d key then d
    else dSet d key (sortF (dGet d key ++ [h]))
  else d ++ [(key, [h])]

/-- One iteration of the channel loop of `Manager._remove`
(core.py 462-466); both `self.channels[channel]` reads go through the
defaultdict. -/
def removeKeyStep (h : HandlerD) (d : Chans) (k : String) : Chans :=
  let p := dGetD d k
  let d1 := if h ∈ p.1 then dSet p.2 k (p.1.erase h) else p.2
  if (dGet d1 k).isEmpty then dDel d1 k else d1

/-- Bucket-level part of `Manager._remove` (core.py 454-466):
`channel=None` visits a snapshot of all current keys. -/
def removeD (d : Chans) (h : HandlerD) (channel : Option String) : Chans :=
  let keys := match channel with
    | Option.none => d.map Prod.fst
    | some c => [c]
  keys.foldl (removeKeyStep h) d

/-- Background task handle (`_task`); the state model keeps only
liveness. -/
structure TaskH where
  alive : Bool
deriving DecidableEq, Repr

abbrev QI := EventV × String × PTarget

/-- A root `Manager`'s own state (core.py 266-280).  `hset` is the
`_handlers` set (insertion ordered); `channel` is the `channel`
attribute `getattr` finds (`None` on a plain Manager). -/
structure Manager where
  queue : List QI := []
  hset : List HandlerD := []
  channels : Chans := []
  channel : Option String := Option.none
  running : Bool := false
  task : Option TaskH := Option.none
deriving DecidableEq

def setAddH (l : List HandlerD) (h : HandlerD) : List HandlerD :=
  if h ∈ l then l else l ++ [h]

/-- `Manager._add` (core.py 425-443). -/
def Manager.add (m : Manager) (h : HandlerD) (channel : Option String) : Manager :=
  let key := channel.getD "*"
  { m with hset := setAddH m.hset h, channels := addD m.channels h key }

/-- `Manager._remove` (core.py 445-466). -/
def Manager.remove (m : Manager) (h : HandlerD) (channel : Option String) : Manager :=
  { m with hset := if h ∈ m.hset then m.hset.erase h else m.hset,
           channels := removeD m.channels h channel }

/-- Split a character list at its first colon. -/
def firstColon : List Char → Option (List Char × List Char)
  | [] => Option.none
  | c :: cs =>
    if c = ':' then some ([], cs)
    else match firstColon cs with
      | some p => some (c :: p.1, p.2)
      | Option.none => Option.none

def strHasColon (s : String) : Bool := s.data.contains ':'

/-- `pre` is a prefix of `s` (`str.startswith`). -/
def strStarts (pre s : String) : Bool := pre.data.isPrefixOf s.data

/-- `post` is a suffix of `s` (`str.endswith`). -/
def strEnds (s post : String) : Bool := post.data.isSuffixOf s.data

/-- `s.split(":", 1)` when a colon is present, else target `None`
(core.py 359-363). -/
def splitKey (s : String) : Option String × String :=
  match firstColon s.data with
  | some p => (some (String.mk p.1), String.mk p.2)
  | Option.none => (Option.none, s)

/-- Python `"%s:" % target`: `None` formats as the string `None`. -/
def targetColon : Option String → String
  | some t => t ++ ":"
  | Option.none => "None:"

/-- `Manager.handlers` (core.py 355-390): the resolved handler
sequence together with the channel index as left behind by the
method's defaultdict accesses. -/
def Manager.handlers (d : Chans) (hset : List HandlerD) (s : String) :
    List HandlerD × Chans :=
  if s = "*:*" then (hset, d) else
  let tc := splitKey s
  let target := tc.1
  let channel := tc.2
  let g := dGetD d "*"
  let globs := g.1
  let d := g.2
  if target = some "*" then
    let x := d.filter (fun kv => kv.1 = channel || strEnds kv.1 (":" ++ channel))
    (globs ++ (x.map Prod.snd).flatten, d)
  else if channel = "*" then
    let c := targetColon target
    let x := d.filter (fun kv => strStarts c kv.1 || !(strHasColon kv.1))
    (globs ++ (x.map Prod.snd).flatten, d)
  else
    let h1 := globs ++ (if dHas d channel then dGet d channel else [])
    let h2 := h1 ++ (match target with
      | some t => if t != "" && dHas d (t ++ ":*") then dGet d (t ++ ":*") else []
      | Option.none => [])
    let h3 := h2 ++ (if dHas d ("*:" ++ channel) then dGet d ("*:" ++ channel) else [])
    match target with
    | some t =>
      if t != "" then
        let p := dGetD d s
        (h3 ++ p.1, p.2)
      else (h3, d)
    | Option.none => (h3, d)

/-- Target defaulting shared by `push` and `send` (core.py 491-492,
524-525): `if target is None: target = getattr(self, "channel",
None)`. -/
def Manager.defaultTarget (m : Manager) : PTarget → PTarget
  | .noneT =>
    match m.channel with
    | some s => PTarget.str s
    | Option.none => PTarget.noneT
  | t => t

/-- The queue entry `push` appends (core.py 494-495). -/
def Manager.pushItem (m : Manager) (ev : EventV) (channel : String)
    (target : PTarget) : QI :=
  (ev, channel, m.defaultTarget target)

/-- `Manager.push` on a root (core.py 469-497). -/
def Manager.push (m : Manager) (ev : EventV) (channel : String)
    (target : PTarget) : Manager :=
  { m with queue := m.queue ++ [m.pushItem ev channel target] }

/-- Outcome of invoking one handler: handler bodies are arbitrary
user code, so they are modelled by an oracle producing one of these.
`raiseSig` is `KeyboardInterrupt` / `SystemExit` (core.py 544). -/
inductive InvRes where
  | ret (v : PyVal)
  | raiseSig
  | raiseErr
deriving DecidableEq, Repr

abbrev Beh := HandlerD → EventV → InvRes

inductive SendRes where
  | val (v : PyVal)
  | sigRaised
  | errRaised
deriving DecidableEq, Repr

structure SendOut where
  res : SendRes
  m : Manager
  ev : EventV
  trace : List HandlerD
  pushed : List QI
deriving DecidableEq

/-- The `Error(*exc_info())` event pushed by `send` (core.py 548);
the exception triple itself lies outside the value model. -/
def errorEv : EventV := { name := "Error" }

/-- The handler loop of `Manager.send` (core.py 537-555).  `r` is the
running result (initially `False`); on a swallowed exception `r`
keeps its previous value and the filter check on line 553 still
runs.  `trace` records the handlers invoked, `pushed` the queue items
appended. -/
def sendLoop (beh : Beh) (log errors : Bool) (ev : EventV) :
    List HandlerD → PyVal → Manager → List HandlerD → List QI → SendOut
  | [], r, m, tr, ps => ⟨.val r, m, ev, tr, ps⟩
  | h :: hs, r, m, tr, ps =>
    match beh h ev with
    | .raiseSig => ⟨.sigRaised, m, ev, tr ++ [h], ps⟩
    | .raiseErr =>
      let m1 := if log then m.push errorEv "error" .noneT else m
      let ps1 := if log then ps ++ [m.pushItem errorEv "error" .noneT] else ps
      if errors then ⟨.errRaised, m1, ev, tr ++ [h], ps1⟩
      else if r.truthyNN && h.filter then ⟨.val r, m1, ev, tr ++ [h], ps1⟩
      else sendLoop beh log errors ev hs r m1 (tr ++ [h]) ps1
    | .ret v =>
      if v.truthyNN && h.filter then ⟨.val v, m, ev, tr ++ [h], ps⟩
      else sendLoop beh log errors ev hs v m (tr ++ [h]) ps

/-- The string the Component / string target rewriting of
`send` leaves in `target` (core.py 532-535). -/
def targetStrOf : PTarget → Option String
  | .noneT => Option.none
  | .str s => some s
  | .comp c => c

/-- The dispatch key `send` hands to `handlers` (core.py 534-535). -/
def Manager.dispatchKey (m : Manager) (channel : String) (target : PTarget) : String :=
  match targetStrOf (m.defaultTarget target) with
  | some s => s ++ ":" ++ channel
  | Option.none => channel

/-- The handler chain `send` iterates, as a function of the manager
state and the call's channel / target. -/
def Manager.resolvedChain (m : Manager) (channel : String) (target : PTarget) :
    List HandlerD :=
  (Manager.handlers m.channels m.hset (m.dispatchKey channel target)).1

/-- `Manager.send` on a root (core.py 516-555). -/
def Manager.send (beh : Beh) (m : Manager) (ev : EventV) (channel : String)
    (target : PTarget) (errors log : Bool) : SendOut :=
  let target1 := m.defaultTarget target
  let ev := { ev with channel := some channel, target := target1 }
  let key := m.dispatchKey channel target
  let hd := Manager.handlers m.channels m.hset key
  let m1 := { m with channels := hd.2 }
  sendLoop beh log errors ev hd.1 (PyVal.bool false) m1 [] []

structure FlushOut where
  m : Manager
  trace : List QI
  aborted : Bool
  pushed : List QI
deriving DecidableEq

/-- The drain loop of `Manager.flush` (core.py 510-512): `send` each
snapshotted triple (with `send`'s default `errors=False`,
`log=True`); an exception escaping `send` propagates out of `flush`
and abandons the rest of the snapshot.  `trace` records the triples
handed to `send`, `pushed` the queue items the sends appended. -/
def flushGo (beh : Beh) : List QI → Manager → List QI → List QI → FlushOut
  | [], m, tr, ps => ⟨m, tr, false, ps⟩
  | (ev, ch, tg) :: q, m, tr, ps =>
    let out := Manager.send beh m ev ch tg false true
    match out.res with
    | .val _ => flushGo beh q out.m (tr ++ [(ev, ch, tg)]) (ps ++ out.pushed)
    | _ => ⟨out.m, tr ++ [(ev, ch, tg)], true, ps ++ out.pushed⟩

/-- `Manager.flush` on a root (core.py 507-512): snapshot the queue,
install a fresh empty one, then send each triple in FIFO order. -/
def Manager.flush (beh : Beh) (m : Manager) : FlushOut :=
  flushGo beh m.queue { m with queue := [] } [] []

/-- A manager chain: a component is either a root or forwards to its
manager (`self.manager.flush()`, core.py 513-514). -/
inductive MTree where
  | root (m : Manager)
  | child (parent : MTree)

def MTree.flush (beh : Beh) : MTree → FlushOut
  | .root m => Manager.flush beh m
  | .child p => p.flush beh

/-- `Manager.stop` (core.py 577-583): clear the running flag,
terminate / join the executor (thread-side effects lie outside the
state model), release the handle. -/
def Manager.stop (m : Manager) : Manager :=
  { m with running := false, task := Option.none }

/-- `Manager.state` (core.py 392-403). -/
def Manager.state (m : Manager) : String :=
  if m.running then
    match m.task with
    | Option.none => "R"
    | some t => if t.alive then "R" else "D"
  else "S"

inductive PyExc where
  | typeError
deriving DecidableEq, Repr

/-- The Python call protocol for class `Started` (core.py 130-142):
its initializer `__init__(self, component)` takes exactly one
positional argument beyond `self`. -/
def startedNew (args : List PyVal) : Except PyExc EventV :=
  if args.length = 1 then .ok { name := "Started", args := args }
  else .error .typeError

/-- Same for class `Stopped` (core.py 145-157). -/
def stoppedNew (args : List PyVal) : Except PyExc EventV :=
  if args.length = 1 then .ok { name := "Stopped", args := args }
  else .error .typeError

/-- The entry of `Manager.run` (core.py 585-591): set `_running`,
then `self.push(Started(), "started")` — `Started` is called with no
arguments.  The statement sits before the `try`, so an exception
raised there propagates out of `run` with nothing enqueued. -/
def Manager.runEntry (m : Manager) : Except PyExc Manager :=
  let m1 := { m with running := true }
  match startedNew [] with
  | .error e => .error e
  | .ok ev => .ok (m1.push ev "started" .noneT)

/-- `self.push(Stopped(), "stopped")` in `run`'s `finally`
(core.py 612), evaluated the same way. -/
def runFinallyPush (m : Manager) : Except PyExc Manager :=
  match stoppedNew [] with
  | .error e => .error e
  | .ok ev => .ok (m.push ev "stopped" .noneT)

/-- An `_add` / `_remove` call, for stating index invariants over
arbitrary operation sequences. -/
inductive IdxOp where
  | add (h : HandlerD) (channel : Option String)
  | rem (h : HandlerD) (channel : Option String)
deriving DecidableEq, Repr

def applyIdxOp (m : Manager) : IdxOp → Manager
  | .add h c => m.add h c
  | .rem h c => m.remove h c

def applyIdxOps (ops : List IdxOp) (m : Manager) : Manager :=
  ops.foldl applyIdxOp m

/-- No bucket of the index is empty. -/
def noEmptyD (d : Chans) : Prop := ∀ kv ∈ d, kv.2 ≠ []

instance (d : Chans) : Decidable (noEmptyD d) := by
  unfold noEmptyD; infer_instance

/-- Buckets are in filters-first form and duplicate-free, keys are
unique — the shape every index reachable through `_add` has. -/
def dInv (d : Chans) : Prop :=
  (d.map Prod.fst).Nodup ∧
    ∀ kv ∈ d, kv.2 ≠ [] ∧ kv.2.Nodup ∧
      kv.2 = kv.2.filter (fun h => h.filter) ++ kv.2.filter (fun h => !h.filter)

/-- The insertion sequence a given bucket key has seen: handlers of
the `_add` calls normalising to that key, first occurrences only. -/
def occAt (ops : List (HandlerD × Option String)) (k : String) : List HandlerD :=
  (ops.filterMap (fun p => if p.2.getD "*" = k then some p.1 else Option.none)).foldl
    setAddH []

def foldAdds (ops : List (HandlerD × Option String)) (m : Manager) : Manager :=
  ops.foldl (fun m p => m.add p.1 p.2) m

/-- The resolution chain exactly as §4.2 of the spec words it, with
bucket order among wildcard matches taken as index order (used to
state claim C2; the code's `*:*` special case is the subject of the
counterexample). -/
def chainSpec (d : Chans) (s : String) : List HandlerD :=
  let tc := splitKey s
  let target := tc.1
  let channel := tc.2
  let globs := dGet d "*"
  if target = some "*" then
    globs ++ ((d.filter (fun kv => kv.1 = channel || strEnds kv.1 (":" ++ channel))).map Prod.snd).flatten
  else if channel = "*" then
    globs ++ ((d.filter (fun kv =>
      (match target with
       | some t => strStarts (t ++ ":") kv.1
       | Option.none => false) || !(strHasColon kv.1))).map Prod.snd).flatten
  else
    globs ++ dGet d channel
      ++ (match target with | some t => dGet d (t ++ ":*") | Option.none => [])
      ++ dGet d ("*:" ++ channel)
      ++ (match target with | some _ => dGet d s | Option.none => [])

/-- The amended resolution chain (claim C2 corrected): the key `*:*`
yields the whole `_handlers` set; with an absent target a
`channel = *` lookup matches the literal prefix `None:` (the Python
rendering of the absent target); and the target side participates in
the non-wildcard case only when it is a non-empty string. -/
def chainAmended (d : Chans) (hset : List HandlerD) (s : String) : List HandlerD :=
  if s = "*:*" then hset else
  let tc := splitKey s
  let target := tc.1
  let channel := tc.2
  let globs := dGet d "*"
  if target = some "*" then
    globs ++ ((d.filter (fun kv => kv.1 = channel || strEnds kv.1 (":" ++ channel))).map Prod.snd).flatten
  else if channel = "*" then
    globs ++ ((d.filter (fun kv =>
      strStarts (targetColon target) kv.1 || !(strHasColon kv.1))).map Prod.snd).flatten
  else
    globs ++ dGet d channel
      ++ (match target with
          | some t => if t != "" then dGet d (t ++ ":*") else []
          | Option.none => [])
      ++ dGet d ("*:" ++ channel)
      ++ (match target with
          | some t => if t != "" then dGet d s else []
          | Option.none => [])

/-- The value `send` accumulates over a run of handlers: each
returning handler overwrites it, raising handlers leave it alone
(core.py 540-543 with the `except` arms). -/
def accVal (beh : Beh) (ev : EventV) (hs : List HandlerD) (r : PyVal) : PyVal :=
  hs.foldl (fun r h => match beh h ev with | .ret v => v | _ => r) r

/-! ### The component tree

`register` / `unregister` / `_registerHidden` (core.py 621-765) walk
and mutate a heap of components; the heap is a function from
component ids to component states, and the loops whose termination
Python leaves implicit take fuel. -/

/-- A queue entry of the tree model: event name, payload component
ids, channel, target. -/
abbrev WQI := String × List Nat × String × Option String

/-- One component's state (`Manager.__init__`, core.py 266-280, plus
the `BaseComponent` attributes).  `ownH` is the handler list
`getmembers` discovers on the instance (core.py 721-722, in member
name order); `tickId` is its `__tick__` if defined, `varTicks` the
ticks of Component-valued instance attributes (core.py 709-711). -/
structure Comp where
  channel : Option String := Option.none
  ownH : List HandlerD := []
  hset : List HandlerD := []
  chans : Chans := []
  queue : List WQI := []
  ticks : List Nat := []
  hidden : List Nat := []
  comps : List Nat := []
  mgr : Nat := 0
  tickId : Option Nat := Option.none
  varTicks : List Nat := []
deriving DecidableEq

abbrev World := Nat → Comp

def upd (w : World) (i : Nat) (c : Comp) : World :=
  fun j => if j = i then c else w j

def setAddN (l : List Nat) (a : Nat) : List Nat :=
  if a ∈ l then l else l ++ [a]

/-- The bucket keys one handler registers under (core.py 724-737):
each of its channels (defaulting to `["*"]`), prefixed with
`handler.target or self.channel` when that is not `None`. -/
def regKeys (xchannel : Option String) (h : HandlerD) : List String :=
  let cs := if h.channels.isEmpty then ["*"] else h.channels
  cs.map (fun ch =>
    match (match h.target with | some t => some t | Option.none => xchannel) with
    | some t => t ++ ":" ++ ch
    | Option.none => ch)

/-- `manager._add(handler, channel)` on the heap (core.py 739). -/
def mAddW (w : World) (p : Nat) (h : HandlerD) (k : String) : World :=
  upd w p { w p with hset := setAddH (w p).hset h, chans := addD (w p).chans h k }

/-- `manager._remove(handler)` on the heap (core.py 756). -/
def mRemoveW (w : World) (p : Nat) (h : HandlerD) (channel : Option String) : World :=
  upd w p { w p with
    hset := if h ∈ (w p).hset then (w p).hset.erase h else (w p).hset,
    chans := removeD (w p).chans h channel }

/-- A `None` target defaults to the current hop's channel
(core.py 491-492). -/
def orChan (t c : Option String) : Option String :=
  match t with
  | some s => some s
  | Option.none => c

/-- The per-hop target re-defaulting of `Manager.push`:
`if target is None: target = getattr(self, "channel", None)`
(core.py 491-492). -/
def reTarget (w : World) (c : Nat) (it : WQI) : WQI :=
  match it.2.2.2 with
  | Option.none => (it.1, it.2.1, it.2.2.1, (w c).channel)
  | some _ => it

/-- `Manager.push` on the heap (core.py 469-497): climb the manager
chain to the root, re-defaulting a `None` target to each hop's
channel, and append there. -/
def pushW : Nat → World → Nat → WQI → World
  | 0, w, _, _ => w
  | fuel + 1, w, c, it =>
    let it2 := reTarget w c it
    if (w c).mgr = c then upd w c { w c with queue := (w c).queue ++ [it2] }
    else pushW fuel w ((w c).mgr) it2

/-- `BaseComponent._getTicks` (core.py 705-718); the Python result is
a set, modelled as a first-occurrence list. -/
def getTicksW (w : World) (x : Nat) : List Nat :=
  ((match (w x).tickId with | some t => [t] | Option.none => []) ++ (w x).varTicks
    ++ (w x).comps.filterMap (fun c => (w c).tickId)
    ++ (w x).hidden.filterMap (fun c => (w c).tickId)).foldl setAddN []

/-- The collection predicate of the hidden walk (core.py 669-674):
p1 ∧ (p2 ∨ p3) ∧ p4. -/
def hpred (w : World) (selfI x : Nat) (hidden : List Nat) : Bool :=
  (x != selfI) &&
    ((w x).mgr != selfI || !(((w ((w selfI).mgr)).comps).contains x)) &&
    !(hidden.contains ((w x).mgr))

/-- The explicit-stack depth-first walk of `_registerHidden`
(core.py 659-691); `visited` guards collection, not traversal, as in
the source. -/
def walkLoop : Nat → World → Nat → Nat → Nat → List Nat →
    List (Nat × List Nat) → List Nat → List Nat → List Nat
  | 0, _, _, _, _, _, _, _, hidden => hidden
  | fuel + 1, w, selfI, x, i, children, stack, visited, hidden =>
    let vh :=
      if x ∈ visited then (visited, hidden)
      else (visited ++ [x],
            if hpred w selfI x hidden then hidden ++ [x] else hidden)
    if hlt : i < children.length then
      let x2 := children.get ⟨i, hlt⟩
      if (w x2).comps.isEmpty then
        walkLoop fuel w selfI x2 (i + 1) children stack vh.1 vh.2
      else
        walkLoop fuel w selfI x2 0 ((w x2).comps) ((i + 1, children) :: stack)
          vh.1 vh.2
    else
      match stack with
      | (i2, ch2) :: rest => walkLoop fuel w selfI x i2 ch2 rest vh.1 vh.2
      | [] => vh.2

mutual

/-- `BaseComponent.register(manager)` (core.py 720-748). -/
def regW : Nat → World → Nat → Nat → World
  | 0, w, _, _ => w
  | fuel + 1, w, x, mg =>
    let w1 := ((w x).ownH).foldl (fun wa h =>
      (regKeys (w x).channel h).foldl (fun wb k => mAddW wb mg h k) wa) w
    let w2 := upd w1 x { w1 x with mgr := mg }
    if mg ≠ x then
      let w3 := upd w2 mg { w2 mg with comps := setAddN (w2 mg).comps x }
      let w4 := pushW (fuel + 1) w3 x
        ("Registered", [x, mg], "registered", (w3 x).channel)
      let w5 := registerHidden fuel w4 x
      let mg2 := (w5 x).mgr
      upd w5 mg2
        { w5 mg2 with ticks := (getTicksW w5 x).foldl setAddN (w5 mg2).ticks }
    else
      let mg2 := (w2 x).mgr
      upd w2 mg2
        { w2 mg2 with ticks := (getTicksW w2 x).foldl setAddN (w2 mg2).ticks }

/-- `BaseComponent._registerHidden` (core.py 658-703).  Every
`self.manager` read is performed at the point the source performs
it. -/
def registerHidden : Nat → World → Nat → World
  | 0, w, _ => w
  | fuel + 1, w, selfI =>
    let hidden := walkLoop (fuel + 1) w selfI selfI 0 ((w selfI).comps) [] [] []
    let w1 := hidden.foldl (fun wa x => regW fuel wa x ((wa selfI).mgr)) w
    let mg := (w1 selfI).mgr
    let w2 := upd w1 mg { w1 mg with hidden := hidden.foldl setAddN (w1 mg).hidden }
    let pm := (w2 ((w2 selfI).mgr)).mgr
    let wh :=
      if (w2 selfI).mgr ≠ pm then
        (regW fuel w2 selfI pm, setAddN hidden selfI)
      else (w2, hidden)
    let mg2 := (wh.1 selfI).mgr
    upd wh.1 mg2
      { wh.1 mg2 with
        comps := (wh.1 mg2).comps.filter (fun c => !(wh.2.contains c)) }

end

/-- `BaseComponent.unregister` (core.py 750-765). -/
def unregW (fuel : Nat) (w : World) (x : Nat) : World :=
  let mg := (w x).mgr
  let w1 := ((w x).hset).foldl (fun wa h => mRemoveW wa mg h Option.none) w
  let w2 :=
    if x ∈ (w1 mg).comps
    then upd w1 mg { w1 mg with comps := (w1 mg).comps.erase x }
    else w1
  let gt := getTicksW w2 x
  let w3 := upd w2 mg
    { w2 mg with ticks := (w2 mg).ticks.filter (fun t => !(gt.contains t)) }
  let w4 := pushW fuel w3 x ("Unregistered", [x, mg], "unregistered", (w3 x).channel)
  upd w4 x { w4 x with mgr := x }

/-! ### Derived notions used to state the claims -/

/-- One accumulation step of `send`'s running result: a returning
handler overwrites it, a raising one leaves it. -/
def accStep (beh : Beh) (ev : EventV) (r : PyVal) (h : HandlerD) : PyVal :=
  match beh h ev with
  | .ret v => v
  | _ => r

/-- Whether the loop body of `send` stops at handler `h` when the
accumulated value before it is `r`: a filter returning a truthy
non-None value, a signal, a re-raised error, or a swallowed error in
a filter while the stale accumulated value is truthy. -/
def stopsHere (beh : Beh) (er : Bool) (ev : EventV) (h : HandlerD) (r : PyVal) : Bool :=
  match beh h ev with
  | .ret v => v.truthyNN && h.filter
  | .raiseSig => true
  | .raiseErr => er || (r.truthyNN && h.filter)

/-- The outcome `send` produces when it stops at `h`. -/
def stopRes (beh : Beh) (er : Bool) (ev : EventV) (h : HandlerD) (r : PyVal) : SendRes :=
  match beh h ev with
  | .ret v => .val v
  | .raiseSig => .sigRaised
  | .raiseErr => if er then .errRaised else .val r

/-- No handler along `hs` stops the dispatch, starting from
accumulated value `r`. -/
def noStopAlong (beh : Beh) (er : Bool) (ev : EventV) : List HandlerD → PyVal → Bool
  | [], _ => true
  | h :: hs, r =>
    !(stopsHere beh er ev h r) && noStopAlong beh er ev hs (accStep beh ev r h)

/-- The queue entry `send` pushes for a handler exception, as a
function of the manager's `channel` attribute. -/
def errItem (c : Option String) : QI :=
  (errorEv, "error",
    match c with | some s => PTarget.str s | Option.none => PTarget.noneT)

/-- The (handler, bucket key) pairs one `register` call feeds to
`_add`, in order (core.py 724-739). -/
def ownPairs (xc : Option String) (hs : List HandlerD) : List (HandlerD × String) :=
  (hs.map (fun h => (regKeys xc h).map (fun k => (h, k)))).flatten

def addPairsD (d : Chans) (ps : List (HandlerD × String)) : Chans :=
  ps.foldl (fun d p => addD d p.1 p.2) d

def addPairsH (l : List HandlerD) (ps : List (HandlerD × String)) : List HandlerD :=
  ps.foldl (fun l p => setAddH l p.1) l

/-! ### Concrete instances for counterexamples and witnesses -/

def emptyM : Manager := {}

def ev0 : EventV := { name := "E" }

def hG : HandlerD := { hid := 0 }
def hF : HandlerD := { hid := 1, filter := true }
def hL : HandlerD := { hid := 2 }

/-- A reachable root state: a global listener and a `c` bucket whose
filter precedes its listener. -/
def mC1 : Manager := { hset := [hG, hF, hL], channels := [("*", [hG]), ("c", [hF, hL])] }

/-- Handler bodies for the C1 counterexample: the global listener
returns `True`, the filter raises, the last listener returns a
string. -/
def behC1 : Beh := fun h _ =>
  if h.hid = 0 then .ret (.bool true)
  else if h.hid = 1 then .raiseErr
  else .ret (.str "x")

def hG4 : HandlerD := { hid := 10 }
def hF4 : HandlerD := { hid := 11, filter := true }
def hL4 : HandlerD := { hid := 12 }

def mC4 : Manager := { hset := [hG4, hF4, hL4], channels := [("*", [hG4]), ("d", [hF4, hL4])] }

def behC4 : Beh := fun h _ =>
  if h.hid = 10 then .ret (.int 1)
  else if h.hid = 11 then .raiseErr
  else .ret (.int 2)

def hA : HandlerD := { hid := 20 }
def dC2 : Chans := [("foo", [hA])]

def hA9 : HandlerD := { hid := 21 }
def dC9 : Chans := [("bar", [hA9])]

/-- C5 counterexample world: component 1 (own root) has child 2;
component 0 is an empty root manager. -/
def wCex5 : World := fun i =>
  if i = 0 then { mgr := 0 }
  else if i = 1 then { mgr := 1, comps := [2] }
  else if i = 2 then { mgr := 1 }
  else {}

def hX : HandlerD := { hid := 30, channels := ["foo"] }
def hP : HandlerD := { hid := 31 }

/-- C5 witness world: component 1 is a channel-less leaf with one
handler and a tick; component 0 is a root with prior content and a
channel, so the pushed announcements pick up the root's channel. -/
def wWit5 : World := fun i =>
  if i = 0 then
    { mgr := 0, hset := [hP], chans := [("a", [hP])], comps := [5],
      ticks := [7], hidden := [9], channel := some "z" }
  else if i = 1 then
    { mgr := 1, ownH := [hX], hset := [hX],
      chans := [("foo", [hX])], tickId := some 3 }
  else {}

def hGh : HandlerD := { hid := 40, channels := ["g"] }

/-- C6 counterexample world: component 1 has child 2 carrying a
handler; component 0 is an empty root. -/
def wCex6 : World := fun i =>
  if i = 0 then { mgr := 0 }
  else if i = 1 then { mgr := 1, comps := [2] }
  else if i = 2 then { mgr := 1, ownH := [hGh], hset := [hGh] }
  else {}

def h41 : HandlerD := { hid := 41, channels := ["ga"] }
def h42 : HandlerD := { hid := 42, channels := ["gb"], filter := true }

/-- C6 witness world: component 1 carries a handler and one leaf child
2 that carries another. -/
def wWit6 : World := fun i =>
  if i = 0 then { mgr := 0, ticks := [100], channel := some "z" }
  else if i = 1 then
    { mgr := 1, comps := [2], ownH := [h42], hset := [h42], tickId := some 8 }
  else if i = 2 then
    { mgr := 1, ownH := [h41], hset := [h41], tickId := some 9,
      channel := some "t" }
  else {}

def hS7 : HandlerD := { hid := 50 }

/-- C7 counterexample state: two queued events whose handler raises a
signal. -/
def mC7 : Manager :=
  { hset := [hS7], channels := [("c", [hS7])],
    queue := [(ev0, "c", .noneT), ({ name := "F" }, "c", .noneT)] }

def behC7 : Beh := fun _ _ => .raiseSig

/-- C7 witness state: one queued event with a plain listener. -/
def mC7w : Manager :=
  { hset := [hG], channels := [("c", [hG])],
    queue := [(ev0, "c", .noneT)] }

/-- A bucket in filters-first form. -/
def sortedB (b : Bucket) : Prop :=
  b = b.filter (fun h => h.filter) ++ b.filter (fun h => !h.filter)

/-- Relation between an original index entry and its state after
handlers from `S` were interleaved into the bucket. -/
def entRel (S : List HandlerD) (kv0 kv : String × Bucket) : Prop :=
  kv.1 = kv0.1 ∧ kv.2.Nodup ∧ sortedB kv.2 ∧
    kv.2.filter (fun h => !(S.contains h)) = kv0.2

/-- `d` is `d0` with handlers from `S` added: the original entries in
place with `S`-members interleaved, followed by fresh keys whose
buckets hold only `S`-members. -/
def relD (S : List HandlerD) (d0 d : Chans) : Prop :=
  (d.map Prod.fst).Nodup ∧
    ∃ d1 d2, d = d1 ++ d2 ∧ List.Forall₂ (entRel S) d0 d1 ∧
      ∀ kv ∈ d2, (dLook d0 kv.1).isNone ∧ kv.2 ≠ [] ∧ kv.2.Nodup ∧
        sortedB kv.2 ∧ kv.2.filter (fun h => !(S.contains h)) = []

/-- The per-entry effect of one `_remove(handler)` pass over the
channel index: erase the handler from the bucket, dropping the entry
when the bucket empties (core.py 462-466). -/
def eraseEnt (h : HandlerD) (kv : String × Bucket) : Option (String × Bucket) :=
  if (kv.2.erase h).isEmpty then Option.none else some (kv.1, kv.2.erase h)

/-! ## Theorems -/

theorem upd_same (w : World) (i : Nat) (c : Comp) : upd w i c i = c := by
  simp [upd]

theorem upd_ne (w : World) (i j : Nat) (c : Comp) (h : j ≠ i) : upd w i c j = w j := by
  simp [upd, h]

theorem pushItem_err (m : Manager) :
    m.pushItem errorEv "error" PTarget.noneT = errItem m.channel := by
  cases hc : m.channel <;> simp [Manager.pushItem, Manager.defaultTarget, errItem, hc]

theorem push_keeps (m : Manager) (ev : EventV) (ch : String) (tg : PTarget) :
    (m.push ev ch tg).running = m.running ∧ (m.push ev ch tg).task = m.task ∧
      (m.push ev ch tg).channel = m.channel ∧ (m.push ev ch tg).hset = m.hset ∧
      (m.push ev ch tg).channels = m.channels := by
  simp [Manager.push]

theorem sendLoop_keeps (beh : Beh) (lg er : Bool) (ev : EventV) :
    ∀ (hs : List HandlerD) (r : PyVal) (m : Manager) (tr : List HandlerD)
      (ps : List QI),
      (sendLoop beh lg er ev hs r m tr ps).m.running = m.running ∧
      (sendLoop beh lg er ev hs r m tr ps).m.task = m.task ∧
      (sendLoop beh lg er ev hs r m tr ps).m.channel = m.channel ∧
      (sendLoop beh lg er ev hs r m tr ps).m.hset = m.hset ∧
      (sendLoop beh lg er ev hs r m tr ps).m.channels = m.channels := by
  intro hs
  induction hs with
  | nil => intro r m tr ps; simp [sendLoop]
  | cons h hs ih =>
    intro r m tr ps
    simp only [sendLoop]
    cases hb : beh h ev with
    | ret v =>
      by_cases hf : (v.truthyNN && h.filter) = true
      · simp [hf]
      · simp [hf]; exact ih v m (tr ++ [h]) ps
    | raiseSig => simp
    | raiseErr =>
      cases er with
      | true =>
        cases lg <;> simp [Manager.push]
      | false =>
        by_cases hf : (r.truthyNN && h.filter) = true
        · cases lg <;> simp [hf, Manager.push]
        · cases lg <;> simp [hf, Manager.push] <;>
            [exact ih r m (tr ++ [h]) ps;
             exact (ih r (m.push errorEv "error" PTarget.noneT) (tr ++ [h]) _).imp
               (fun a => a.trans (push_keeps m errorEv "error" PTarget.noneT).1)
               (fun a => a.imp
                 (fun b => b.trans (push_keeps m errorEv "error" PTarget.noneT).2.1)
                 (fun b => b.imp
                   (fun c => c.trans (push_keeps m errorEv "error" PTarget.noneT).2.2.1)
                   (fun c => c.imp
                     (fun d => d.trans (push_keeps m errorEv "error" PTarget.noneT).2.2.2.1)
                     (fun d => d.trans (push_keeps m errorEv "error" PTarget.noneT).2.2.2.2))))]

/-- C3: the claim is right and the code is wrong.  `run` never
enqueues a `Started` event: core.py line 591 evaluates `Started()`
with no arguments although `Started.__init__(self, component)`
(core.py 139) requires one, so every call of `run` raises `TypeError`
before entering its loop; the `finally` push of `Stopped()`
(core.py 612) fails the same way. -/
theorem c3_run_started_typeerror :
    (∀ m : Manager, m.runEntry = Except.error PyExc.typeError) ∧
      (∀ m : Manager, runFinallyPush m = Except.error PyExc.typeError) := by
  exact ⟨fun m => rfl, fun m => rfl⟩

theorem send_keeps (beh : Beh) (m : Manager) (ev : EventV) (ch : String)
    (tg : PTarget) (er lg : Bool) :
    (Manager.send beh m ev ch tg er lg).m.running = m.running ∧
      (Manager.send beh m ev ch tg er lg).m.task = m.task ∧
      (Manager.send beh m ev ch tg er lg).m.channel = m.channel := by
  have h := sendLoop_keeps beh lg er
    { ev with channel := some ch, target := m.defaultTarget tg }
    (Manager.handlers m.channels m.hset (m.dispatchKey ch tg)).1 (PyVal.bool false)
    { m with channels := (Manager.handlers m.channels m.hset (m.dispatchKey ch tg)).2 }
    [] []
  exact ⟨h.1, h.2.1, h.2.2.1⟩

theorem flushGo_keeps (beh : Beh) :
    ∀ (q : List QI) (m : Manager) (tr ps : List QI),
      (flushGo beh q m tr ps).m.running = m.running ∧
        (flushGo beh q m tr ps).m.task = m.task ∧
        (flushGo beh q m tr ps).m.channel = m.channel := by
  intro q
  induction q with
  | nil => intro m tr ps; simp [flushGo]
  | cons it q ih =>
    intro m tr ps
    obtain ⟨ev, ch, tg⟩ := it
    simp only [flushGo]
    have hs := send_keeps beh m ev ch tg false true
    cases hres : (Manager.send beh m ev ch tg false true).res with
    | val v =>
      simp only
      have hi := ih (Manager.send beh m ev ch tg false true).m
        (tr ++ [(ev, ch, tg)]) (ps ++ (Manager.send beh m ev ch tg false true).pushed)
      exact ⟨hi.1.trans hs.1, (hi.2.1.trans hs.2.1), hi.2.2.trans hs.2.2⟩
    | sigRaised => simpa using hs
    | errRaised => simpa using hs

/-- C10: after `stop()` (core.py 577-583) the running flag is false,
the task handle is `None`, and `state` (core.py 392-403) reports
`"S"`; the `"D"` state requires the running flag, and the kernel's
queue operations (`push`, `send`, `flush` — all a post-stop drain
iteration performs) never touch the flag or the handle, so `"D"` is
not observable once `stop()` has returned. -/
theorem c10_stop_state :
    (∀ m : Manager, (m.stop).running = false ∧ (m.stop).task = Option.none ∧
        (m.stop).state = "S") ∧
    (∀ m : Manager, m.running = false → m.state = "S") ∧
    (∀ m : Manager, m.state = "D" → m.running = true) ∧
    (∀ (m : Manager) (ev : EventV) (ch : String) (tg : PTarget),
        (m.push ev ch tg).running = m.running ∧ (m.push ev ch tg).task = m.task) ∧
    (∀ (beh : Beh) (m : Manager) (ev : EventV) (ch : String) (tg : PTarget)
        (er lg : Bool),
        (Manager.send beh m ev ch tg er lg).m.running = m.running ∧
          (Manager.send beh m ev ch tg er lg).m.task = m.task) ∧
    (∀ (beh : Beh) (m : Manager),
        (Manager.flush beh m).m.running = m.running ∧
          (Manager.flush beh m).m.task = m.task) := by
  refine ⟨fun m => ⟨rfl, rfl, by simp [Manager.stop, Manager.state]⟩,
    fun m hm => by simp [Manager.state, hm],
    fun m hd => ?_,
    fun m ev ch tg => ⟨(push_keeps m ev ch tg).1, (push_keeps m ev ch tg).2.1⟩,
    fun beh m ev ch tg er lg => ⟨(send_keeps beh m ev ch tg er lg).1,
      (send_keeps beh m ev ch tg er lg).2.1⟩,
    fun beh m => ?_⟩
  · by_contra hr
    simp only [Bool.not_eq_true] at hr
    simp [Manager.state, hr] at hd
  · have h := flushGo_keeps beh m.queue { m with queue := [] } [] []
    exact ⟨h.1, h.2.1⟩

/-- Witness for C10 at a concrete stopped-then-drained state. -/
theorem c10_witness :
    (Manager.stop { running := true, task := some { alive := false } }).state = "S" ∧
      Manager.state { running := false, task := Option.none, queue := [] } = "S" := by
  exact ⟨(c10_stop_state.1 _).2.2, c10_stop_state.2.1 _ rfl⟩

theorem dGet_append_nil (d : Chans) (k0 k : String) :
    dGet (d ++ [(k0, [])]) k = dGet d k := by
  induction d with
  | nil =>
    simp only [List.nil_append, dGet, dLook]
    split <;> rfl
  | cons kv d ih =>
    by_cases h : kv.1 = k
    · simp [dGet, dLook, h]
    · simpa [dGet, dLook, h] using ih

theorem dHas_ite_get (d : Chans) (k : String) :
    (if dHas d k then dGet d k else []) = dGet d k := by
  by_cases h : dHas d k
  · simp [h]
  · have hl : dLook d k = Option.none := by
      unfold dHas at h
      cases hl : dLook d k
      · rfl
      · simp [hl] at h
    simp [h, dGet, hl]

theorem dGetD_fst (d : Chans) (k : String) : (dGetD d k).1 = dGet d k := by
  unfold dGetD dGet
  cases hl : dLook d k <;> simp [hl]

theorem dGet_dGetD_snd (d : Chans) (k k2 : String) :
    dGet ((dGetD d k).2) k2 = dGet d k2 := by
  unfold dGetD
  cases hl : dLook d k with
  | none => simp [hl, dGet_append_nil]
  | some b => simp [hl]

theorem flatten_filter_dGetD (d : Chans) (k : String) (p : String × Bucket → Bool) :
    ((((dGetD d k).2).filter p).map Prod.snd).flatten
      = ((d.filter p).map Prod.snd).flatten := by
  unfold dGetD
  cases hl : dLook d k with
  | some b => simp [hl]
  | none =>
    simp only [hl, List.filter_append, List.map_append, List.flatten_append]
    cases hp : p (k, []) <;> simp [hp]

theorem dHas_false_get (d : Chans) (k : String) (h : dHas d k = false) :
    dGet d k = [] := by
  unfold dHas at h
  unfold dGet
  cases hl : dLook d k
  · rfl
  · simp [hl] at h

theorem dLook_append_of_isSome (d e : Chans) (k : String)
    (h : (dLook d k).isSome) : dLook (d ++ e) k = dLook d k := by
  induction d with
  | nil => simp [dLook] at h
  | cons kv d ih =>
    by_cases hk : kv.1 = k
    · simp [dLook, hk]
    · simp only [List.cons_append, dLook, if_neg hk] at h ⊢
      exact ih h

theorem dHas_dGetD_snd (d : Chans) (k0 k : String) (h : dHas d k = true) :
    dHas ((dGetD d k0).2) k = true := by
  unfold dGetD
  cases hl : dLook d k0 with
  | some b => simpa using h
  | none =>
    unfold dHas at h ⊢
    simp only
    rw [dLook_append_of_isSome _ _ _ h]
    exact h

theorem ite_hasD_get (d : Chans) (k0 k : String) :
    (if dHas ((dGetD d k0).2) k = true then dGet d k else []) = dGet d k := by
  cases hh : dHas d k
  · have hg := dHas_false_get d k hh
    simp [hg]
  · simp [dHas_dGetD_snd d k0 k hh]

/-- C2 (corrected): for every dispatch key, resolution yields exactly
the chained sequence of §4.2 amended only as the code's special cases
force: the key `*:*` yields the whole `_handlers` set (not the §4.2
chain); with an absent target a `channel = *` lookup matches the
literal prefix `None:`; and the target side of the non-wildcard case
participates only when the target is a non-empty string. -/
theorem c2_resolution (d : Chans) (hset : List HandlerD) (s : String) :
    (Manager.handlers d hset s).1 = chainAmended d hset s := by
  by_cases hstar : s = "*:*"
  · simp [Manager.handlers, chainAmended, hstar]
  · rcases hsk : splitKey s with ⟨tgt, ch⟩
    by_cases ht : tgt = some "*"
    · simp [Manager.handlers, chainAmended, hstar, hsk, ht, dGetD_fst,
        flatten_filter_dGetD]
    · by_cases hc : ch = "*"
      · simp [Manager.handlers, chainAmended, hstar, hsk, ht, hc, dGetD_fst,
          flatten_filter_dGetD]
      · cases tgt with
        | none =>
          simp [Manager.handlers, chainAmended, hstar, hsk, hc, dGetD_fst,
            dGet_dGetD_snd, dHas_ite_get, ite_hasD_get]
        | some t =>
          cases htne : (t != "") with
          | false =>
            simp [Manager.handlers, chainAmended, hstar, hsk, ht, hc, htne,
              dGetD_fst, dGet_dGetD_snd, dHas_ite_get, ite_hasD_get]
          | true =>
            simp [Manager.handlers, chainAmended, hstar, hsk, ht, hc, htne,
              dGetD_fst, dGet_dGetD_snd, dHas_ite_get, ite_hasD_get]

/-- C2 counterexample: at dispatch key `*:*` (both sides the
wildcard) the code returns the whole `_handlers` set rather than the
chained sequence of §4.2: with a single colon-free bucket `foo`, the
§4.2 chain is empty while resolution yields the bucket's handler. -/
theorem c2_counterexample :
    (Manager.handlers dC2 [hA] "*:*").1 = [hA] ∧ chainSpec dC2 "*:*" = [] ∧
      (Manager.handlers dC2 [hA] "*:*").1 ≠ chainSpec dC2 "*:*" :=
  ⟨by decide, by decide, by decide⟩

theorem filter_sortF_pos (b : Bucket) :
    (sortF b).filter (fun h => h.filter) = b.filter (fun h => h.filter) := by
  simp [sortF, List.filter_append, List.filter_filter]

theorem filter_sortF_neg (b : Bucket) :
    (sortF b).filter (fun h => !h.filter) = b.filter (fun h => !h.filter) := by
  simp [sortF, List.filter_append, List.filter_filter]

theorem mem_sortF (b : Bucket) (h : HandlerD) : h ∈ sortF b ↔ h ∈ b := by
  rcases hf : h.filter <;> simp [sortF, List.mem_append, List.mem_filter, hf]

theorem sortF_sortF_append (occ : Bucket) (h : HandlerD) :
    sortF (sortF occ ++ [h]) = sortF (occ ++ [h]) := by
  rcases hf : h.filter <;>
    simp [sortF, List.filter_append, List.filter_filter, hf]

theorem sortF_single (h : HandlerD) : sortF [h] = [h] := by
  rcases hf : h.filter <;> simp [sortF, hf]

theorem sortF_nodup (b : Bucket) (hb : b.Nodup) : (sortF b).Nodup := by
  refine List.Nodup.append (hb.filter _) (hb.filter _) ?_
  intro a ha1 ha2
  have h1 := (List.mem_filter.mp ha1).2
  have h2 := (List.mem_filter.mp ha2).2
  simp [h1] at h2

theorem setAddH_nodup (l : List HandlerD) (h : HandlerD) (hl : l.Nodup) :
    (setAddH l h).Nodup := by
  unfold setAddH
  split
  · exact hl
  · simpa [List.nodup_append, hl] using (by assumption : ¬h ∈ l)

theorem foldl_setAddH_nodup (l : List HandlerD) :
    ∀ acc : List HandlerD, acc.Nodup → (l.foldl setAddH acc).Nodup := by
  induction l with
  | nil => intro acc h; simpa using h
  | cons a l ih => intro acc h; exact ih _ (setAddH_nodup acc a h)

theorem occAt_nodup (ops : List (HandlerD × Option String)) (k : String) :
    (occAt ops k).Nodup := foldl_setAddH_nodup _ [] List.nodup_nil

theorem dLook_dSet_ne (d : Chans) (k : String) (b : Bucket) (k2 : String)
    (h2 : k2 ≠ k) : dLook (dSet d k b) k2 = dLook d k2 := by
  induction d with
  | nil => rfl
  | cons kv d ih =>
    by_cases hk : kv.1 = k
    · have hne2 : ¬(kv.1 = k2) := by rw [hk]; exact Ne.symm h2
      simp only [dSet, List.map_cons]
      rw [if_pos hk]
      simp only [dLook]
      rw [if_neg (show ¬((k, b).1 = k2) from Ne.symm h2), if_neg hne2]
      simpa only [dSet] using ih
    · by_cases hk2 : kv.1 = k2
      · simp [dSet, dLook, hk, hk2, h2]
      · simp only [dSet, List.map_cons]
        rw [if_neg hk]
        simp only [dLook]
        rw [if_neg hk2, if_neg hk2]
        simpa only [dSet] using ih

theorem dLook_dSet_eq (d : Chans) (k : String) (b : Bucket)
    (h : dHas d k = true) : dLook (dSet d k b) k = some b := by
  induction d with
  | nil => simp [dHas, dLook] at h
  | cons kv d ih =>
    by_cases hk : kv.1 = k
    · simp [dSet, dLook, hk]
    · simp only [dHas, dLook, if_neg hk] at h
      simp only [dSet, List.map_cons]
      rw [if_neg hk]
      simp only [dLook]
      rw [if_neg hk]
      simpa only [dSet] using ih h

theorem dLook_append_single_ne (d : Chans) (k : String) (b : Bucket) (k2 : String)
    (h2 : k2 ≠ k) : dLook (d ++ [(k, b)]) k2 = dLook d k2 := by
  induction d with
  | nil => simp [dLook, Ne.symm h2]
  | cons kv d ih =>
    by_cases hk : kv.1 = k2 <;> simp [dLook, hk, ih]

theorem dLook_append_single_self (d : Chans) (k : String) (b : Bucket)
    (h : dHas d k = false) : dLook (d ++ [(k, b)]) k = some b := by
  induction d with
  | nil => simp [dLook]
  | cons kv d ih =>
    by_cases hk : kv.1 = k
    · simp [dHas, dLook, hk] at h
    · simp only [dHas, dLook, if_neg hk] at h
      simp [dLook, hk, ih h]

theorem addD_look_ne (d : Chans) (h : HandlerD) (key k : String) (hne : k ≠ key) :
    dLook (addD d h key) k = dLook d k := by
  unfold addD
  split
  · split
    · rfl
    · exact dLook_dSet_ne d key _ k hne
  · exact dLook_append_single_ne d key _ k hne

theorem foldAdds_char (ops : List (HandlerD × Option String)) :
    ∀ k, dLook ((foldAdds ops emptyM).channels) k
        = if occAt ops k = [] then Option.none else some (sortF (occAt ops k)) := by
  induction ops using List.reverseRecOn with
  | nil => intro k; simp [foldAdds, emptyM, occAt, dLook]
  | append_singleton l p ih =>
    intro k
    have hfold : foldAdds (l ++ [p]) emptyM = (foldAdds l emptyM).add p.1 p.2 := by
      simp [foldAdds, List.foldl_append]
    have hocc : occAt (l ++ [p]) k =
        if p.2.getD "*" = k then setAddH (occAt l k) p.1 else occAt l k := by
      unfold occAt
      rw [List.filterMap_append, List.foldl_append]
      by_cases hk : p.2.getD "*" = k <;> simp [hk, occAt]
    by_cases hk : p.2.getD "*" = k
    · rw [hfold, hocc, if_pos hk]
      show dLook (addD (foldAdds l emptyM).channels p.1 (p.2.getD "*")) k = _
      rw [hk]
      by_cases hocc0 : occAt l k = []
      · have hdl := ih k
        rw [if_pos hocc0] at hdl
        have hhas : dHas (foldAdds l emptyM).channels k = false := by
          simp [dHas, hdl]
        unfold addD
        rw [hhas]
        simp only [Bool.false_eq_true, if_false]
        rw [dLook_append_single_self _ _ _ hhas]
        simp [hocc0, setAddH, sortF_single]
      · have hdl := ih k
        rw [if_neg hocc0] at hdl
        have hhas : dHas (foldAdds l emptyM).channels k = true := by
          simp [dHas, hdl]
        have hget : dGet (foldAdds l emptyM).channels k = sortF (occAt l k) := by
          simp [dGet, hdl]
        unfold addD
        rw [hhas, hget]
        simp only [if_true]
        by_cases hmem : p.1 ∈ sortF (occAt l k)
        · rw [if_pos hmem, hdl]
          have : setAddH (occAt l k) p.1 = occAt l k := by
            simp [setAddH, (mem_sortF _ _).mp hmem]
          rw [this, if_neg hocc0]
        · rw [if_neg hmem]
          have hnm : ¬p.1 ∈ occAt l k := fun hm => hmem ((mem_sortF _ _).mpr hm)
          have hset : setAddH (occAt l k) p.1 = occAt l k ++ [p.1] := by
            simp [setAddH, hnm]
          rw [dLook_dSet_eq _ _ _ hhas, hset, sortF_sortF_append]
          rw [if_neg (by simp)]
    · rw [hfold, hocc, if_neg hk]
      show dLook (addD (foldAdds l emptyM).channels p.1 (p.2.getD "*")) k = _
      rw [addD_look_ne _ _ _ _ (fun he => hk he.symm)]
      exact ih k

/-- C8 (confirmed): in every bucket reachable by a sequence of `_add`
calls from a fresh manager, all filter handlers precede all listener
handlers, insertion order (of first insertion) is preserved within
each of the two groups, and no handler appears twice. -/
theorem c8_bucket_invariant (ops : List (HandlerD × Option String)) (k : String)
    (b : Bucket) (hb : dLook ((foldAdds ops emptyM).channels) k = some b) :
    b.Nodup ∧
      b = b.filter (fun h => h.filter) ++ b.filter (fun h => !h.filter) ∧
      b.filter (fun h => h.filter) = (occAt ops k).filter (fun h => h.filter) ∧
      b.filter (fun h => !h.filter) = (occAt ops k).filter (fun h => !h.filter) := by
  have hc := foldAdds_char ops k
  rw [hb] at hc
  by_cases h0 : occAt ops k = []
  · rw [if_pos h0] at hc; exact absurd hc (by simp)
  · rw [if_neg h0] at hc
    have hbv : b = sortF (occAt ops k) := Option.some.inj hc
    subst hbv
    refine ⟨sortF_nodup _ (occAt_nodup ops k), ?_, filter_sortF_pos _,
      filter_sortF_neg _⟩
    rw [filter_sortF_pos, filter_sortF_neg]
    rfl

/-- Witness for C8: the listener inserted first still ends up after
the filter inserted second. -/
theorem c8_witness :
    dLook ((foldAdds [(hL, some "c"), (hF, some "c")] emptyM).channels) "c"
        = some [hF, hL] ∧
      [hF, hL].Nodup ∧
        [hF, hL] = [hF, hL].filter (fun h => h.filter)
            ++ [hF, hL].filter (fun h => !h.filter) ∧
        [hF, hL].filter (fun h => h.filter)
            = (occAt [(hL, some "c"), (hF, some "c")] "c").filter
                (fun h => h.filter) ∧
        [hF, hL].filter (fun h => !h.filter)
            = (occAt [(hL, some "c"), (hF, some "c")] "c").filter
                (fun h => !h.filter) :=
  ⟨by decide, c8_bucket_invariant [(hL, some "c"), (hF, some "c")] "c" [hF, hL]
    (by decide)⟩

theorem dHas_iff_mem_keys (d : Chans) (k : String) :
    dHas d k = true ↔ k ∈ d.map Prod.fst := by
  induction d with
  | nil => simp [dHas, dLook]
  | cons kv d ih =>
    by_cases hk : kv.1 = k
    · simp [dHas, dLook, hk]
    · simp only [dHas, dLook, if_neg hk, List.map_cons, List.mem_cons]
      rw [← dHas]
      constructor
      · intro hh; exact Or.inr (ih.mp hh)
      · rintro (he | hm)
        · exact absurd he.symm hk
        · exact ih.mpr hm

theorem dSet_keys (d : Chans) (k : String) (b : Bucket) :
    (dSet d k b).map Prod.fst = d.map Prod.fst := by
  induction d with
  | nil => rfl
  | cons kv d ih =>
    by_cases hk : kv.1 = k <;> simp [dSet, hk] <;>
      simpa [dSet] using ih

theorem mem_dSet (d : Chans) (k : String) (b : Bucket) (kv : String × Bucket)
    (h : kv ∈ dSet d k b) : (kv.1 = k ∧ kv.2 = b) ∨ kv ∈ d := by
  rcases List.mem_map.mp h with ⟨kv0, hkv0, heq⟩
  by_cases hk : kv0.1 = k
  · left; rw [← heq]; simp [hk]
  · right; rw [← heq]; simpa [hk] using hkv0

theorem sortF_append_ne_nil (b : Bucket) (h : HandlerD) :
    sortF (b ++ [h]) ≠ [] := by
  intro he
  have hm : h ∈ sortF (b ++ [h]) := (mem_sortF _ _).mpr (by simp)
  rw [he] at hm
  exact absurd hm (List.not_mem_nil h)

theorem noEmpty_keys_addD (d : Chans) (h : HandlerD) (key : String)
    (hd : noEmptyD d) (hk : (d.map Prod.fst).Nodup) :
    noEmptyD (addD d h key) ∧ ((addD d h key).map Prod.fst).Nodup := by
  unfold addD
  split
  · split
    · exact ⟨hd, hk⟩
    · constructor
      · intro kv hkv
        rcases mem_dSet _ _ _ _ hkv with ⟨_, hv⟩ | hmem
        · rw [hv]; exact sortF_append_ne_nil _ h
        · exact hd kv hmem
      · rw [dSet_keys]; exact hk
  · constructor
    · intro kv hkv
      rcases List.mem_append.mp hkv with hmem | hmem
      · exact hd kv hmem
      · simp only [List.mem_singleton] at hmem
        rw [hmem]; simp
    · have hnk : ¬ key ∈ d.map Prod.fst := by
        intro hm
        have := (dHas_iff_mem_keys d key).mpr hm
        simp_all
      simp [List.nodup_append, hk, hnk]

theorem dDel_sub (d : Chans) (k : String) (kv : String × Bucket)
    (h : kv ∈ dDel d k) : kv ∈ d ∧ kv.1 ≠ k := by
  have := List.mem_filter.mp h
  refine ⟨this.1, ?_⟩
  simpa using this.2

theorem dDel_keys_sublist (d : Chans) (k : String) :
    ((dDel d k).map Prod.fst).Sublist (d.map Prod.fst) :=
  List.Sublist.map _ (List.filter_sublist d)

theorem dDel_of_not_has (d : Chans) (k : String) (h : dHas d k = false) :
    dDel d k = d := by
  apply List.filter_eq_self.mpr
  intro kv hkv
  have hne : kv.1 ≠ k := by
    intro he
    have hmem : k ∈ d.map Prod.fst := by
      rw [← he]; exact List.mem_map_of_mem Prod.fst hkv
    have ht := (dHas_iff_mem_keys d k).mpr hmem
    rw [h] at ht
    exact absurd ht (by decide)
  simpa using hne

theorem removeKeyStep_preserves (h : HandlerD) (d : Chans) (k : String)
    (hd : noEmptyD d) (hk : (d.map Prod.fst).Nodup) :
    noEmptyD (removeKeyStep h d k) ∧
      ((removeKeyStep h d k).map Prod.fst).Nodup := by
  unfold removeKeyStep dGetD
  cases hl : dLook d k with
  | none =>
    simp only [List.not_mem_nil, if_false]
    have hhas : dHas d k = false := by simp [dHas, hl]
    have hlk : dLook (d ++ [(k, [])]) k = some [] :=
      dLook_append_single_self d k [] hhas
    simp only [dGet, hlk, Option.getD_some, List.isEmpty_nil, if_true]
    have : dDel (d ++ [(k, [])]) k = dDel d k := by
      unfold dDel
      rw [List.filter_append]
      simp
    rw [this, dDel_of_not_has d k hhas]
    exact ⟨hd, hk⟩
  | some b =>
    simp only
    have hhas : dHas d k = true := by simp [dHas, hl]
    by_cases hm : h ∈ b
    · simp only [hm, if_true]
      have hget : dGet (dSet d k (b.erase h)) k = b.erase h := by
        simp [dGet, dLook_dSet_eq d k _ hhas]
      rw [hget]
      by_cases he : (b.erase h).isEmpty
      · simp only [he, if_true]
        constructor
        · intro kv hkv
          have hsub := dDel_sub _ _ _ hkv
          rcases mem_dSet _ _ _ _ hsub.1 with ⟨h1, _⟩ | hmem
          · exact absurd h1 hsub.2
          · exact hd kv hmem
        · exact hk.sublist (by rw [← dSet_keys d k (b.erase h)]; exact dDel_keys_sublist _ k)
      · simp only [he, Bool.false_eq_true, if_false]
        constructor
        · intro kv hkv
          rcases mem_dSet _ _ _ _ hkv with ⟨_, hv⟩ | hmem
          · rw [hv]; simpa using he
          · exact hd kv hmem
        · rw [dSet_keys]; exact hk
    · simp only [hm, if_false]
      have hget : dGet d k = b := by simp [dGet, hl]
      rw [hget]
      by_cases he : b.isEmpty
      · simp only [he, if_true]
        exact ⟨fun kv hkv => hd kv (dDel_sub _ _ _ hkv).1,
          hk.sublist (dDel_keys_sublist d k)⟩
      · simp only [he, Bool.false_eq_true, if_false]
        exact ⟨hd, hk⟩

theorem removeFold_preserves (h : HandlerD) :
    ∀ (ks : List String) (d : Chans), noEmptyD d → (d.map Prod.fst).Nodup →
      noEmptyD (ks.foldl (removeKeyStep h) d) ∧
        ((ks.foldl (removeKeyStep h) d).map Prod.fst).Nodup := by
  intro ks
  induction ks with
  | nil => intro d hd hk; exact ⟨hd, hk⟩
  | cons k ks ih =>
    intro d hd hk
    have hstep := removeKeyStep_preserves h d k hd hk
    exact ih (removeKeyStep h d k) hstep.1 hstep.2

theorem applyIdxOp_preserves (m : Manager) (op : IdxOp)
    (hd : noEmptyD m.channels) (hk : (m.channels.map Prod.fst).Nodup) :
    noEmptyD ((applyIdxOp m op).channels) ∧
      (((applyIdxOp m op).channels).map Prod.fst).Nodup := by
  cases op with
  | add h c =>
    exact noEmpty_keys_addD m.channels h (c.getD "*") hd hk
  | rem h c =>
    show noEmptyD (removeD m.channels h c) ∧ _
    unfold removeD
    cases c with
    | none => exact removeFold_preserves h _ m.channels hd hk
    | some cc => exact removeFold_preserves h _ m.channels hd hk

theorem mem_dGetD_snd (d : Chans) (k : String) (kv : String × Bucket)
    (h : kv ∈ (dGetD d k).2) : kv ∈ d ∨ kv = (k, []) := by
  unfold dGetD at h
  cases hl : dLook d k with
  | some b => rw [hl] at h; exact Or.inl h
  | none =>
    rw [hl] at h
    rcases List.mem_append.mp h with hm | hm
    · exact Or.inl hm
    · simp only [List.mem_singleton] at hm; exact Or.inr hm

/-- C9 (corrected): an empty bucket never survives `_add` or
`_remove` — from a fresh manager any sequence of these keeps every
bucket of the index non-empty — but handler *resolution* violates
the stated invariant: its defaultdict reads may leave an empty bucket
behind, only ever at the global key `*` or at the dispatch key
itself. -/
theorem c9_empty_buckets :
    (∀ ops : List IdxOp,
        noEmptyD ((applyIdxOps ops emptyM).channels) ∧
          (((applyIdxOps ops emptyM).channels).map Prod.fst).Nodup) ∧
    (∀ (d : Chans) (hset : List HandlerD) (s : String), noEmptyD d →
        ∀ kv ∈ (Manager.handlers d hset s).2, kv.2 ≠ [] ∨ kv.1 = "*" ∨ kv.1 = s) := by
  constructor
  · intro ops
    have : ∀ m : Manager, noEmptyD m.channels → (m.channels.map Prod.fst).Nodup →
        noEmptyD ((applyIdxOps ops m).channels) ∧
          (((applyIdxOps ops m).channels).map Prod.fst).Nodup := by
      unfold applyIdxOps
      induction ops with
      | nil => intro m hd hk; exact ⟨hd, hk⟩
      | cons op ops ih =>
        intro m hd hk
        have hstep := applyIdxOp_preserves m op hd hk
        exact ih (applyIdxOp m op) hstep.1 hstep.2
    exact this emptyM (by intro kv hkv; cases hkv) (by simp [emptyM])
  · intro d hset s hd kv hkv
    unfold Manager.handlers at hkv
    by_cases hstar : s = "*:*"
    · rw [if_pos hstar] at hkv
      exact Or.inl (hd kv hkv)
    · rw [if_neg hstar] at hkv
      simp only at hkv
      have fromStar : kv ∈ (dGetD d "*").2 → kv.2 ≠ [] ∨ kv.1 = "*" ∨ kv.1 = s := by
        intro hm
        rcases mem_dGetD_snd d "*" kv hm with hm2 | hm2
        · exact Or.inl (hd kv hm2)
        · rw [hm2]; exact Or.inr (Or.inl rfl)
      rcases hsp : splitKey s with ⟨tgt, ch⟩
      rw [hsp] at hkv
      by_cases ht : tgt = some "*"
      · rw [if_pos ht] at hkv
        exact fromStar hkv
      · rw [if_neg ht] at hkv
        by_cases hc : ch = "*"
        · rw [if_pos hc] at hkv
          exact fromStar hkv
        · rw [if_neg hc] at hkv
          cases tgt with
          | none => exact fromStar hkv
          | some t =>
            simp only at hkv
            by_cases hte : (t != "") = true
            · rw [if_pos hte] at hkv
              rcases mem_dGetD_snd _ s kv hkv with hm2 | hm2
              · exact fromStar hm2
              · rw [hm2]; exact Or.inr (Or.inr rfl)
            · rw [if_neg hte] at hkv
              exact fromStar hkv

/-- C9 counterexample: resolving handlers for a plain key on an index
holding one bucket leaves an empty bucket at the global key `*` in
the index, so the claim's invariant fails after a resolution (or a
send). -/
theorem c9_counterexample :
    ¬ noEmptyD (Manager.handlers dC9 [hA9] "bar").2 ∧
      (Manager.handlers dC9 [hA9] "bar").2 = [("bar", [hA9]), ("*", [])] :=
  ⟨by decide, by decide⟩

/-- Witness for C9 at a concrete add/remove sequence and a concrete
resolution. -/
theorem c9_witness :
    noEmptyD ((applyIdxOps [IdxOp.add hA9 (some "x"), IdxOp.rem hA9 Option.none]
        emptyM).channels) ∧
      (("bar", [hA9]).2 ≠ [] ∨ ("bar", [hA9]).1 = "*" ∨ ("bar", [hA9]).1 = "bar") :=
  ⟨(c9_empty_buckets.1 _).1,
    c9_empty_buckets.2 dC9 [hA9] "bar" (by decide) ("bar", [hA9]) (by decide)⟩

theorem accVal_cons (beh : Beh) (ev : EventV) (h : HandlerD) (hs : List HandlerD)
    (r : PyVal) : accVal beh ev (h :: hs) r = accVal beh ev hs (accStep beh ev r h) := by
  simp [accVal, accStep]

theorem accVal_append (beh : Beh) (ev : EventV) (l1 l2 : List HandlerD) (r : PyVal) :
    accVal beh ev (l1 ++ l2) r = accVal beh ev l2 (accVal beh ev l1 r) := by
  simp [accVal, List.foldl_append]

theorem accVal_concat (beh : Beh) (ev : EventV) (l : List HandlerD) (h : HandlerD)
    (r : PyVal) : accVal beh ev (l ++ [h]) r = accStep beh ev (accVal beh ev l r) h := by
  rw [accVal_append, accVal_cons]
  rfl

theorem noStopAlong_append (beh : Beh) (er : Bool) (ev : EventV) (l1 l2 : List HandlerD) :
    ∀ r, noStopAlong beh er ev (l1 ++ l2) r =
      (noStopAlong beh er ev l1 r && noStopAlong beh er ev l2 (accVal beh ev l1 r)) := by
  induction l1 with
  | nil => intro r; simp [noStopAlong, accVal]
  | cons h l1 ih =>
    intro r
    simp only [List.cons_append, noStopAlong, accVal_cons]
    rw [show l1.append l2 = l1 ++ l2 from rfl, ih (accStep beh ev r h), Bool.and_assoc]

theorem sendLoop_cons_ret (beh : Beh) (lg er : Bool) (ev : EventV) (h : HandlerD)
    (hs : List HandlerD) (r v : PyVal) (m : Manager) (tr : List HandlerD)
    (ps : List QI) (hb : beh h ev = .ret v) :
    sendLoop beh lg er ev (h :: hs) r m tr ps =
      if v.truthyNN && h.filter then ⟨.val v, m, ev, tr ++ [h], ps⟩
      else sendLoop beh lg er ev hs v m (tr ++ [h]) ps := by
  simp [sendLoop, hb]

theorem sendLoop_cons_sig (beh : Beh) (lg er : Bool) (ev : EventV) (h : HandlerD)
    (hs : List HandlerD) (r : PyVal) (m : Manager) (tr : List HandlerD)
    (ps : List QI) (hb : beh h ev = .raiseSig) :
    sendLoop beh lg er ev (h :: hs) r m tr ps = ⟨.sigRaised, m, ev, tr ++ [h], ps⟩ := by
  simp [sendLoop, hb]

theorem sendLoop_cons_err (beh : Beh) (lg er : Bool) (ev : EventV) (h : HandlerD)
    (hs : List HandlerD) (r : PyVal) (m : Manager) (tr : List HandlerD)
    (ps : List QI) (hb : beh h ev = .raiseErr) :
    sendLoop beh lg er ev (h :: hs) r m tr ps =
      (if er then
        ⟨.errRaised, if lg then m.push errorEv "error" .noneT else m, ev, tr ++ [h],
          if lg then ps ++ [m.pushItem errorEv "error" .noneT] else ps⟩
      else if r.truthyNN && h.filter then
        ⟨.val r, if lg then m.push errorEv "error" .noneT else m, ev, tr ++ [h],
          if lg then ps ++ [m.pushItem errorEv "error" .noneT] else ps⟩
      else sendLoop beh lg er ev hs r
        (if lg then m.push errorEv "error" .noneT else m) (tr ++ [h])
        (if lg then ps ++ [m.pushItem errorEv "error" .noneT] else ps)) := by
  simp [sendLoop, hb]

theorem sendLoop_ev (beh : Beh) (lg er : Bool) (ev : EventV) :
    ∀ (hs : List HandlerD) (r : PyVal) (m : Manager) (tr : List HandlerD)
      (ps : List QI), (sendLoop beh lg er ev hs r m tr ps).ev = ev := by
  intro hs
  induction hs with
  | nil => intro r m tr ps; rfl
  | cons h hs ih =>
    intro r m tr ps
    cases hb : beh h ev with
    | ret v =>
      rw [sendLoop_cons_ret beh lg er ev h hs r v m tr ps hb]
      split
      · rfl
      · exact ih v m (tr ++ [h]) ps
    | raiseSig => rw [sendLoop_cons_sig beh lg er ev h hs r m tr ps hb]
    | raiseErr =>
      rw [sendLoop_cons_err beh lg er ev h hs r m tr ps hb]
      split
      · rfl
      · split
        · rfl
        · exact ih r _ (tr ++ [h]) _

theorem stopsHere_ret (beh : Beh) (er : Bool) (ev : EventV) (h : HandlerD)
    (v r : PyVal) (hb : beh h ev = .ret v) :
    stopsHere beh er ev h r = (v.truthyNN && h.filter) := by
  simp [stopsHere, hb]

theorem stopsHere_sig (beh : Beh) (er : Bool) (ev : EventV) (h : HandlerD)
    (r : PyVal) (hb : beh h ev = .raiseSig) : stopsHere beh er ev h r = true := by
  simp [stopsHere, hb]

theorem stopsHere_err (beh : Beh) (er : Bool) (ev : EventV) (h : HandlerD)
    (r : PyVal) (hb : beh h ev = .raiseErr) :
    stopsHere beh er ev h r = (er || (r.truthyNN && h.filter)) := by
  simp [stopsHere, hb]

theorem accStep_ret (beh : Beh) (ev : EventV) (h : HandlerD) (v r : PyVal)
    (hb : beh h ev = .ret v) : accStep beh ev r h = v := by
  simp [accStep, hb]

theorem accStep_raise (beh : Beh) (ev : EventV) (h : HandlerD) (r : PyVal)
    (hb : beh h ev = .raiseErr ∨ beh h ev = .raiseSig) : accStep beh ev r h = r := by
  rcases hb with hb | hb <;> simp [accStep, hb]

theorem sendLoop_noStop (beh : Beh) (lg er : Bool) (ev : EventV) :
    ∀ (hs : List HandlerD) (r : PyVal) (m : Manager) (tr : List HandlerD)
      (ps : List QI), noStopAlong beh er ev hs r = true →
      (sendLoop beh lg er ev hs r m tr ps).trace = tr ++ hs ∧
        (sendLoop beh lg er ev hs r m tr ps).res = .val (accVal beh ev hs r) := by
  intro hs
  induction hs with
  | nil => intro r m tr ps _; exact ⟨by simp [sendLoop], rfl⟩
  | cons h hs ih =>
    intro r m tr ps hns
    simp only [noStopAlong, Bool.and_eq_true, Bool.not_eq_true'] at hns
    obtain ⟨hstop, htail⟩ := hns
    cases hb : beh h ev with
    | ret v =>
      rw [stopsHere_ret beh er ev h v r hb] at hstop
      rw [sendLoop_cons_ret beh lg er ev h hs r v m tr ps hb, if_neg (by simp [hstop])]
      have hi := ih v m (tr ++ [h]) ps (by rwa [accStep_ret beh ev h v r hb] at htail)
      refine ⟨by rw [hi.1]; simp, ?_⟩
      rw [hi.2, accVal_cons, accStep_ret beh ev h v r hb]
    | raiseSig =>
      rw [stopsHere_sig beh er ev h r hb] at hstop
      exact absurd hstop (by simp)
    | raiseErr =>
      rw [stopsHere_err beh er ev h r hb] at hstop
      have her : er = false := by
        cases er
        · rfl
        · simp at hstop
      have hcond : (r.truthyNN && h.filter) = false := by
        cases hcd : (r.truthyNN && h.filter)
        · rfl
        · rw [her, hcd] at hstop; simp at hstop
      rw [sendLoop_cons_err beh lg er ev h hs r m tr ps hb, if_neg (by simp [her]),
        if_neg (by simp [hcond])]
      have hi := ih r (if lg then m.push errorEv "error" .noneT else m) (tr ++ [h])
        (if lg then ps ++ [m.pushItem errorEv "error" .noneT] else ps)
        (by rwa [accStep_raise beh ev h r (Or.inl hb)] at htail)
      refine ⟨by rw [hi.1]; simp, ?_⟩
      rw [hi.2, accVal_cons, accStep_raise beh ev h r (Or.inl hb)]

theorem sendLoop_stop (beh : Beh) (lg er : Bool) (ev : EventV) :
    ∀ (hs : List HandlerD) (r : PyVal) (m : Manager) (tr : List HandlerD)
      (ps : List QI), noStopAlong beh er ev hs r = false →
      ∃ pre h rest, hs = pre ++ h :: rest ∧
        noStopAlong beh er ev pre r = true ∧
        stopsHere beh er ev h (accVal beh ev pre r) = true ∧
        (sendLoop beh lg er ev hs r m tr ps).trace = tr ++ pre ++ [h] ∧
        (sendLoop beh lg er ev hs r m tr ps).res
          = stopRes beh er ev h (accVal beh ev pre r) := by
  intro hs
  induction hs with
  | nil => intro r m tr ps hns; simp [noStopAlong] at hns
  | cons h hs ih =>
    intro r m tr ps hns
    by_cases hsh : stopsHere beh er ev h r = true
    · refine ⟨[], h, hs, by simp, by simp [noStopAlong], by simpa [accVal] using hsh,
        ?_⟩
      cases hb : beh h ev with
      | ret v =>
        rw [stopsHere_ret beh er ev h v r hb] at hsh
        rw [sendLoop_cons_ret beh lg er ev h hs r v m tr ps hb, if_pos hsh]
        exact ⟨by simp, by simp [stopRes, hb, accVal]⟩
      | raiseSig =>
        rw [sendLoop_cons_sig beh lg er ev h hs r m tr ps hb]
        exact ⟨by simp, by simp [stopRes, hb]⟩
      | raiseErr =>
        rw [stopsHere_err beh er ev h r hb] at hsh
        rw [sendLoop_cons_err beh lg er ev h hs r m tr ps hb]
        cases her : er
        · rw [her] at hsh
          simp only [Bool.false_or] at hsh
          rw [if_neg (by simp), if_pos hsh]
          exact ⟨by simp, by simp [stopRes, hb, accVal, her]⟩
        · rw [if_pos rfl]
          exact ⟨by simp, by simp [stopRes, hb, her]⟩
    · have hsh' : stopsHere beh er ev h r = false := by
        cases hv : stopsHere beh er ev h r
        · rfl
        · exact absurd hv hsh
      have htail : noStopAlong beh er ev hs (accStep beh ev r h) = false := by
        simp only [noStopAlong, hsh', Bool.not_false, Bool.true_and] at hns
        exact hns
      cases hb : beh h ev with
      | ret v =>
        have hcond : (v.truthyNN && h.filter) = false := by
          rwa [stopsHere_ret beh er ev h v r hb] at hsh'
        have hacc : accStep beh ev r h = v := accStep_ret beh ev h v r hb
        obtain ⟨pre, h2, rest, h1, h2', h3, h4, h5⟩ :=
          ih (accStep beh ev r h) m (tr ++ [h]) ps htail
        refine ⟨h :: pre, h2, rest, by rw [h1]; simp, ?_, ?_, ?_, ?_⟩
        · simp [noStopAlong, hsh', h2']
        · rwa [accVal_cons]
        · rw [sendLoop_cons_ret beh lg er ev h hs r v m tr ps hb, if_neg (by simp [hcond]),
            ← hacc, h4]
          simp
        · rw [sendLoop_cons_ret beh lg er ev h hs r v m tr ps hb, if_neg (by simp [hcond]),
            ← hacc, h5, accVal_cons]
      | raiseSig =>
        exact absurd (stopsHere_sig beh er ev h r hb) hsh
      | raiseErr =>
        have hcond : (er || (r.truthyNN && h.filter)) = false := by
          rwa [stopsHere_err beh er ev h r hb] at hsh'
        have her : er = false := by
          cases er
          · rfl
          · simp at hcond
        have hrc : (r.truthyNN && h.filter) = false := by
          rw [her] at hcond
          simpa using hcond
        have hacc : accStep beh ev r h = r := accStep_raise beh ev h r (Or.inl hb)
        obtain ⟨pre, h2, rest, h1, h2', h3, h4, h5⟩ :=
          ih (accStep beh ev r h)
            (if lg then m.push errorEv "error" .noneT else m) (tr ++ [h])
            (if lg then ps ++ [m.pushItem errorEv "error" .noneT] else ps) htail
        refine ⟨h :: pre, h2, rest, by rw [h1]; simp, ?_, ?_, ?_, ?_⟩
        · simp [noStopAlong, hsh', h2']
        · rwa [accVal_cons]
        · rw [sendLoop_cons_err beh lg er ev h hs r m tr ps hb, if_neg (by simp [her]),
            if_neg (by simp [hrc]), ← hacc, h4]
          simp
        · rw [hacc] at h5
          rw [sendLoop_cons_err beh lg er ev h hs r m tr ps hb, if_neg (by simp [her]),
            if_neg (by simp [hrc]), h5, accVal_cons, hacc]

theorem sendLoop_frame (beh : Beh) (lg er : Bool) (ev : EventV) :
    ∀ (hs : List HandlerD) (r : PyVal) (m : Manager) (tr : List HandlerD)
      (ps : List QI),
      ∃ T, (sendLoop beh lg er ev hs r m tr ps).trace = tr ++ T ∧
        (sendLoop beh lg er ev hs r m tr ps).pushed = ps ++
          (if lg then (T.filter (fun hh => beh hh ev == InvRes.raiseErr)).map
              (fun _ => errItem m.channel) else []) ∧
        (sendLoop beh lg er ev hs r m tr ps).m.queue = m.queue ++
          (if lg then (T.filter (fun hh => beh hh ev == InvRes.raiseErr)).map
              (fun _ => errItem m.channel) else []) := by
  intro hs
  induction hs with
  | nil =>
    intro r m tr ps
    exact ⟨[], by simp [sendLoop], by cases lg <;> simp [sendLoop],
      by cases lg <;> simp [sendLoop]⟩
  | cons h hs ih =>
    intro r m tr ps
    cases hb : beh h ev with
    | ret v =>
      rw [sendLoop_cons_ret beh lg er ev h hs r v m tr ps hb]
      by_cases hcd : (v.truthyNN && h.filter) = true
      · rw [if_pos hcd]
        exact ⟨[h], by simp, by cases lg <;> simp [hb], by cases lg <;> simp [hb]⟩
      · rw [if_neg hcd]
        obtain ⟨T, hT1, hT2, hT3⟩ := ih v m (tr ++ [h]) ps
        refine ⟨h :: T, by rw [hT1]; simp, ?_, ?_⟩
        · rw [hT2]
          cases lg <;> simp [hb]
        · rw [hT3]
          cases lg <;> simp [hb]
    | raiseSig =>
      rw [sendLoop_cons_sig beh lg er ev h hs r m tr ps hb]
      exact ⟨[h], by simp, by cases lg <;> simp [hb], by cases lg <;> simp [hb]⟩
    | raiseErr =>
      rw [sendLoop_cons_err beh lg er ev h hs r m tr ps hb]
      have hitem : m.pushItem errorEv "error" PTarget.noneT = errItem m.channel :=
        pushItem_err m
      by_cases her : er = true
      · rw [if_pos her]
        refine ⟨[h], by simp, ?_, ?_⟩
        · cases lg <;> simp [hb, hitem]
        · cases lg <;> simp [hb, hitem, Manager.push]
      · rw [if_neg her]
        by_cases hcd : (r.truthyNN && h.filter) = true
        · rw [if_pos hcd]
          refine ⟨[h], by simp, ?_, ?_⟩
          · cases lg <;> simp [hb, hitem]
          · cases lg <;> simp [hb, hitem, Manager.push]
        · rw [if_neg hcd]
          obtain ⟨T, hT1, hT2, hT3⟩ := ih r
            (if lg then m.push errorEv "error" .noneT else m) (tr ++ [h])
            (if lg then ps ++ [m.pushItem errorEv "error" .noneT] else ps)
          refine ⟨h :: T, by rw [hT1]; simp, ?_, ?_⟩
          · rw [hT2]
            cases lg <;> simp [hb, hitem, Manager.push]
          · rw [hT3]
            cases lg <;> simp [hb, hitem, Manager.push]

theorem noStopAlong_dropLast (beh : Beh) (er : Bool) (ev : EventV)
    (hs : List HandlerD) (r : PyVal) (h : noStopAlong beh er ev hs r = true) :
    noStopAlong beh er ev hs.dropLast r = true := by
  rcases List.eq_nil_or_concat hs with rfl | ⟨l, a, rfl⟩
  · simpa using h
  · rw [List.concat_eq_append] at h ⊢
    rw [List.dropLast_concat]
    rw [noStopAlong_append] at h
    exact ((by simpa using h :
      noStopAlong beh er ev l r = true ∧
        noStopAlong beh er ev [a] (accVal beh ev l r) = true)).1

theorem take_append_cons (l1 : List HandlerD) (a : HandlerD) (l2 : List HandlerD) :
    (l1 ++ a :: l2).take (l1.length + 1) = l1 ++ [a] := by
  induction l1 with
  | nil => simp
  | cons b l1 ih => simpa using ih

/-- C1 (corrected): for every `send` on a root, the invoked handlers
form a prefix (in order) of the resolved chain; on an empty chain
`send` neither throws nor invokes anything and returns `False`
(falsy); whenever `send` returns a value it is the accumulated value
over the invoked handlers (each return overwrites it, a swallowed
exception keeps the previous one — `False` if no handler returned);
a value-returning dispatch that stops before the end of the chain
stops exactly at a filter whose accumulated value is truthy non-None
and returns that value; and no earlier invoked handler satisfied a
stop condition. -/
theorem c1_send_dispatch (beh : Beh) (m : Manager) (ev : EventV) (ch : String)
    (tgt : PTarget) (er lg : Bool) :
    (∃ n, n ≤ (m.resolvedChain ch tgt).length ∧
        (Manager.send beh m ev ch tgt er lg).trace = (m.resolvedChain ch tgt).take n) ∧
    (m.resolvedChain ch tgt = [] →
        (Manager.send beh m ev ch tgt er lg).res = .val (PyVal.bool false) ∧
          (Manager.send beh m ev ch tgt er lg).trace = [] ∧
          (PyVal.bool false).truthyNN = false) ∧
    (∀ v, (Manager.send beh m ev ch tgt er lg).res = .val v →
        v = accVal beh (Manager.send beh m ev ch tgt er lg).ev
            (Manager.send beh m ev ch tgt er lg).trace (PyVal.bool false)) ∧
    (∀ v, (Manager.send beh m ev ch tgt er lg).res = .val v →
        (Manager.send beh m ev ch tgt er lg).trace ≠ m.resolvedChain ch tgt →
        ∃ pre hh, (Manager.send beh m ev ch tgt er lg).trace = pre ++ [hh] ∧
          hh.filter = true ∧ v.truthyNN = true) ∧
    noStopAlong beh er (Manager.send beh m ev ch tgt er lg).ev
        ((Manager.send beh m ev ch tgt er lg).trace.dropLast) (PyVal.bool false) = true := by
  have hout : Manager.send beh m ev ch tgt er lg
      = sendLoop beh lg er { ev with channel := some ch, target := m.defaultTarget tgt }
        (m.resolvedChain ch tgt) (PyVal.bool false)
        { m with channels := (Manager.handlers m.channels m.hset (m.dispatchKey ch tgt)).2 }
        [] [] := rfl
  rw [hout]
  set ev1 : EventV := { ev with channel := some ch, target := m.defaultTarget tgt }
  set hs : List HandlerD := m.resolvedChain ch tgt
  set m1 : Manager :=
    { m with channels := (Manager.handlers m.channels m.hset (m.dispatchKey ch tgt)).2 }
  rw [sendLoop_ev beh lg er ev1 hs (PyVal.bool false) m1 [] []]
  cases hn : noStopAlong beh er ev1 hs (PyVal.bool false) with
  | true =>
    obtain ⟨ht, hr⟩ := sendLoop_noStop beh lg er ev1 hs (PyVal.bool false) m1 [] [] hn
    rw [List.nil_append] at ht
    refine ⟨⟨hs.length, le_refl _, by rw [ht, List.take_length]⟩, ?_, ?_, ?_, ?_⟩
    · intro h0
      rw [h0] at ht hr ⊢
      exact ⟨by rw [hr]; rfl, ht, rfl⟩
    · intro v hv
      rw [hr] at hv
      rw [ht, ← SendRes.val.inj hv]
    · intro v _ hne
      exact absurd ht hne
    · rw [ht]
      exact noStopAlong_dropLast beh er ev1 hs (PyVal.bool false) hn
  | false =>
    obtain ⟨pre, hst, rest, h1, h2, h3, h4, h5⟩ :=
      sendLoop_stop beh lg er ev1 hs (PyVal.bool false) m1 [] [] hn
    rw [List.nil_append] at h4
    refine ⟨⟨pre.length + 1, ?_, ?_⟩, ?_, ?_, ?_, ?_⟩
    · rw [h1]
      simp only [List.length_append, List.length_cons]
      omega
    · rw [h4, h1, take_append_cons]
    · intro h0
      rw [h0] at h1
      exact absurd h1.symm (by simp)
    · intro v hv
      rw [hv] at h5
      rw [h4, accVal_concat]
      cases hb : beh hst ev1 with
      | ret w =>
        rw [accStep_ret beh ev1 hst w _ hb]
        unfold stopRes at h5
        rw [hb] at h5
        exact SendRes.val.inj h5
      | raiseSig =>
        unfold stopRes at h5
        rw [hb] at h5
        exact absurd h5 (by simp)
      | raiseErr =>
        rw [accStep_raise beh ev1 hst _ (Or.inl hb)]
        unfold stopRes at h5
        rw [hb] at h5
        cases her : er
        · rw [her] at h5
          simp only [Bool.false_eq_true, if_false] at h5
          exact SendRes.val.inj h5
        · rw [her] at h5
          simp only [if_true] at h5
          exact absurd h5 (by simp)
    · intro v hv _
      rw [hv] at h5
      unfold stopRes at h5
      cases hb : beh hst ev1 <;> rw [hb] at h5
      case ret w =>
        rw [stopsHere_ret beh er ev1 hst w _ hb] at h3
        have hws : w.truthyNN = true ∧ hst.filter = true := by simpa using h3
        exact ⟨pre, hst, h4, hws.2, by rw [SendRes.val.inj h5]; exact hws.1⟩
      case raiseSig => exact absurd h5 (by simp)
      case raiseErr =>
        rw [stopsHere_err beh er ev1 hst _ hb] at h3
        cases her : er
        · rw [her] at h5 h3 h4
          simp only [Bool.false_eq_true, if_false] at h5
          simp only [Bool.false_or] at h3
          have hws : (accVal beh ev1 pre (PyVal.bool false)).truthyNN = true ∧
              hst.filter = true := by simpa using h3
          exact ⟨pre, hst, h4, hws.2, by rw [SendRes.val.inj h5]; exact hws.1⟩
        · rw [her] at h5
          simp only [if_true] at h5
          exact absurd h5 (by simp)
    · rw [h4, List.dropLast_concat]
      exact h2

/-- C1 counterexample: a dispatch in which no invoked handler is a
filter that returned a truthy non-None value, yet the third handler
of the resolved chain is never invoked and `send` returns the first
listener's value rather than the last handler's: the filter raises,
and the filter check of core.py 553 runs on the stale result of the
earlier listener. -/
theorem c1_counterexample :
    mC1.resolvedChain "c" PTarget.noneT = [hG, hF, hL] ∧
      (Manager.send behC1 mC1 ev0 "c" PTarget.noneT false true).trace = [hG, hF] ∧
      (Manager.send behC1 mC1 ev0 "c" PTarget.noneT false true).res
        = SendRes.val (PyVal.bool true) ∧
      behC1 hG (Manager.send behC1 mC1 ev0 "c" PTarget.noneT false true).ev
        = InvRes.ret (PyVal.bool true) ∧
      hG.filter = false ∧
      behC1 hF (Manager.send behC1 mC1 ev0 "c" PTarget.noneT false true).ev
        = InvRes.raiseErr ∧
      hL ∉ (Manager.send behC1 mC1 ev0 "c" PTarget.noneT false true).trace ∧
      behC1 hL (Manager.send behC1 mC1 ev0 "c" PTarget.noneT false true).ev
        = InvRes.ret (PyVal.str "x") := by
  decide

/-- Witness for C1 at the concrete early-stopping dispatch. -/
theorem c1_witness :
    ∃ pre hh,
      (Manager.send behC1 mC1 ev0 "c" PTarget.noneT false true).trace
          = pre ++ [hh] ∧
        hh.filter = true ∧ (PyVal.bool true).truthyNN = true :=
  (c1_send_dispatch behC1 mC1 ev0 "c" PTarget.noneT false true).2.2.2.1
    (PyVal.bool true) (by decide) (by decide)

theorem append_cons_eq_concat (l1 : List HandlerD) (a : HandlerD)
    (l2 l3 : List HandlerD) (b : HandlerD) (h : l1 ++ a :: l2 = l3 ++ [b]) :
    (l1 = l3 ∧ a = b ∧ l2 = []) ∨
      ∃ l2x, l2 = l2x ++ [b] ∧ l3 = l1 ++ a :: l2x := by
  rcases List.eq_nil_or_concat l2 with rfl | ⟨l2x, c, rfl⟩
  · left
    have hlen : l1.length = l3.length := by
      have := congrArg List.length h
      simp at this
      omega
    have hinj := List.append_inj h hlen
    refine ⟨hinj.1, ?_, rfl⟩
    have := hinj.2
    simpa using this
  · right
    rw [List.concat_eq_append] at h
    have h2 : (l1 ++ a :: l2x) ++ [c] = l3 ++ [b] := by
      rw [← h]
      simp
    have hlen : (l1 ++ a :: l2x).length = l3.length := by
      have := congrArg List.length h2
      simp at this
      simp
      omega
    have hinj := List.append_inj h2 hlen
    have hcb : c = b := by
      have := hinj.2
      simpa using this
    exact ⟨l2x, by rw [hcb, List.concat_eq_append], hinj.1.symm⟩

theorem concat_eq_concat_parts (l1 l2 : List HandlerD) (a b : HandlerD)
    (h : l1 ++ [a] = l2 ++ [b]) : l1 = l2 ∧ a = b := by
  have hlen : l1.length = l2.length := by
    have := congrArg List.length h
    simp at this
    omega
  have hinj := List.append_inj h hlen
  refine ⟨hinj.1, ?_⟩
  have := hinj.2
  simpa using this

theorem noStopAlong_no_interior (beh : Beh) (er : Bool) (ev : EventV)
    (pre : List HandlerD) (hh : HandlerD) (rest : List HandlerD) (r : PyVal)
    (h : noStopAlong beh er ev (pre ++ hh :: rest) r = true) :
    stopsHere beh er ev hh (accVal beh ev pre r) = false := by
  rw [noStopAlong_append] at h
  have h2 := (by simpa using h :
    noStopAlong beh er ev pre r = true ∧
      noStopAlong beh er ev (hh :: rest) (accVal beh ev pre r) = true).2
  simp only [noStopAlong, Bool.and_eq_true] at h2
  rcases h3 : stopsHere beh er ev hh (accVal beh ev pre r)
  · rfl
  · rw [h3] at h2
    simp at h2

/-- C4 (corrected): for every handler raising inside `send`: a
signal ends the dispatch at that handler and propagates; when the
log flag is set one Error queue item per raising handler is appended
on channel `error` (and none otherwise); when the errors flag is set
the raising handler is the last invoked and `send` re-raises; when
the errors flag is unset the exception is swallowed and dispatch
continues — except that a dispatch ending early at a swallowed
exception is exactly the stale-filter case: the raising handler is a
filter, the accumulated value from earlier handlers is truthy
non-None, and `send` returns that value. -/
theorem c4_send_errors (beh : Beh) (m : Manager) (ev : EventV) (ch : String)
    (tgt : PTarget) (er lg : Bool) :
    (∀ pre hh rest, (Manager.send beh m ev ch tgt er lg).trace = pre ++ hh :: rest →
        beh hh (Manager.send beh m ev ch tgt er lg).ev = .raiseSig →
        rest = [] ∧ (Manager.send beh m ev ch tgt er lg).res = .sigRaised) ∧
    ((Manager.send beh m ev ch tgt er lg).m.queue = m.queue ++
        (Manager.send beh m ev ch tgt er lg).pushed ∧
      (Manager.send beh m ev ch tgt er lg).pushed =
        (if lg then (((Manager.send beh m ev ch tgt er lg).trace.filter
            (fun hh => beh hh (Manager.send beh m ev ch tgt er lg).ev
              == InvRes.raiseErr)).map (fun _ => errItem m.channel)) else [])) ∧
    (er = true → ∀ pre hh rest,
        (Manager.send beh m ev ch tgt er lg).trace = pre ++ hh :: rest →
        beh hh (Manager.send beh m ev ch tgt er lg).ev = .raiseErr →
        rest = [] ∧ (Manager.send beh m ev ch tgt er lg).res = .errRaised) ∧
    (er = false → ∀ pre hh,
        (Manager.send beh m ev ch tgt er lg).trace = pre ++ [hh] →
        beh hh (Manager.send beh m ev ch tgt er lg).ev = .raiseErr →
        (Manager.send beh m ev ch tgt er lg).trace ≠ m.resolvedChain ch tgt →
        hh.filter = true ∧
          (accVal beh (Manager.send beh m ev ch tgt er lg).ev pre
              (PyVal.bool false)).truthyNN = true ∧
          (Manager.send beh m ev ch tgt er lg).res
            = .val (accVal beh (Manager.send beh m ev ch tgt er lg).ev pre
                (PyVal.bool false))) := by
  have hout : Manager.send beh m ev ch tgt er lg
      = sendLoop beh lg er { ev with channel := some ch, target := m.defaultTarget tgt }
        (m.resolvedChain ch tgt) (PyVal.bool false)
        { m with channels := (Manager.handlers m.channels m.hset (m.dispatchKey ch tgt)).2 }
        [] [] := rfl
  rw [hout]
  set ev1 : EventV := { ev with channel := some ch, target := m.defaultTarget tgt }
  set hs : List HandlerD := m.resolvedChain ch tgt
  set m1 : Manager :=
    { m with channels := (Manager.handlers m.channels m.hset (m.dispatchKey ch tgt)).2 }
  rw [sendLoop_ev beh lg er ev1 hs (PyVal.bool false) m1 [] []]
  refine ⟨?_, ?_, ?_, ?_⟩
  · intro pre hh rest htr hb
    cases hn : noStopAlong beh er ev1 hs (PyVal.bool false) with
    | true =>
      obtain ⟨ht, _⟩ := sendLoop_noStop beh lg er ev1 hs (PyVal.bool false) m1 [] [] hn
      rw [List.nil_append] at ht
      rw [ht] at htr
      rw [htr] at hn
      have := noStopAlong_no_interior beh er ev1 pre hh rest (PyVal.bool false) hn
      rw [stopsHere_sig beh er ev1 hh _ hb] at this
      exact absurd this (by simp)
    | false =>
      obtain ⟨pre0, h0, rest0, h1, h2, h3, h4, h5⟩ :=
        sendLoop_stop beh lg er ev1 hs (PyVal.bool false) m1 [] [] hn
      rw [List.nil_append] at h4
      rw [h4] at htr
      rcases append_cons_eq_concat pre hh rest pre0 h0 htr.symm with ⟨he1, he2, he3⟩ | ⟨l2x, _, he3⟩
      · subst he1; subst he2
        refine ⟨he3, ?_⟩
        rw [h5]
        unfold stopRes
        rw [hb]
      · rw [he3] at h2
        have := noStopAlong_no_interior beh er ev1 pre hh l2x (PyVal.bool false) h2
        rw [stopsHere_sig beh er ev1 hh _ hb] at this
        exact absurd this (by simp)
  · obtain ⟨T, hT1, hT2, hT3⟩ :=
      sendLoop_frame beh lg er ev1 hs (PyVal.bool false) m1 [] []
    rw [List.nil_append] at hT1 hT2
    have hm1q : m1.queue = m.queue := rfl
    have hm1c : m1.channel = m.channel := rfl
    rw [hm1q] at hT3
    rw [hm1c] at hT2 hT3
    refine ⟨by rw [hT2, hT3], ?_⟩
    rw [hT1]
    exact hT2
  · intro her pre hh rest htr hb
    subst her
    cases hn : noStopAlong beh true ev1 hs (PyVal.bool false) with
    | true =>
      obtain ⟨ht, _⟩ := sendLoop_noStop beh lg true ev1 hs (PyVal.bool false) m1 [] [] hn
      rw [List.nil_append] at ht
      rw [ht] at htr
      rw [htr] at hn
      have := noStopAlong_no_interior beh true ev1 pre hh rest (PyVal.bool false) hn
      rw [stopsHere_err beh true ev1 hh _ hb] at this
      exact absurd this (by simp)
    | false =>
      obtain ⟨pre0, h0, rest0, h1, h2, h3, h4, h5⟩ :=
        sendLoop_stop beh lg true ev1 hs (PyVal.bool false) m1 [] [] hn
      rw [List.nil_append] at h4
      rw [h4] at htr
      rcases append_cons_eq_concat pre hh rest pre0 h0 htr.symm with ⟨he1, he2, he3⟩ | ⟨l2x, _, he3⟩
      · subst he1; subst he2
        refine ⟨he3, ?_⟩
        rw [h5]
        unfold stopRes
        rw [hb]
        rfl
      · rw [he3] at h2
        have := noStopAlong_no_interior beh true ev1 pre hh l2x (PyVal.bool false) h2
        rw [stopsHere_err beh true ev1 hh _ hb] at this
        exact absurd this (by simp)
  · intro her pre hh htr hb hne
    subst her
    cases hn : noStopAlong beh false ev1 hs (PyVal.bool false) with
    | true =>
      obtain ⟨ht, _⟩ := sendLoop_noStop beh lg false ev1 hs (PyVal.bool false) m1 [] [] hn
      rw [List.nil_append] at ht
      exact absurd ht hne
    | false =>
      obtain ⟨pre0, h0, rest0, h1, h2, h3, h4, h5⟩ :=
        sendLoop_stop beh lg false ev1 hs (PyVal.bool false) m1 [] [] hn
      rw [List.nil_append] at h4
      rw [h4] at htr
      obtain ⟨he1, he2⟩ := concat_eq_concat_parts pre pre0 hh h0 htr.symm
      subst he1
      subst he2
      rw [stopsHere_err beh false ev1 hh _ hb] at h3
      simp only [Bool.false_or, Bool.and_eq_true] at h3
      have h3' : (accVal beh ev1 pre (PyVal.bool false)).truthyNN = true ∧
          hh.filter = true := by simpa using h3
      refine ⟨h3'.2, h3'.1, ?_⟩
      rw [h5]
      unfold stopRes
      rw [hb]
      simp

/-- C4 counterexample: a handler exception that is swallowed (errors
flag unset) yet dispatch does not continue with the next handler —
the raising filter ends the dispatch because the stale accumulated
value from the earlier listener is truthy (core.py 553). -/
theorem c4_counterexample :
    mC4.resolvedChain "d" PTarget.noneT = [hG4, hF4, hL4] ∧
      behC4 hF4 (Manager.send behC4 mC4 ev0 "d" PTarget.noneT false false).ev
        = InvRes.raiseErr ∧
      (Manager.send behC4 mC4 ev0 "d" PTarget.noneT false false).res
        = SendRes.val (PyVal.int 1) ∧
      (Manager.send behC4 mC4 ev0 "d" PTarget.noneT false false).trace
        = [hG4, hF4] ∧
      hL4 ∉ (Manager.send behC4 mC4 ev0 "d" PTarget.noneT false false).trace ∧
      (Manager.send behC4 mC4 ev0 "d" PTarget.noneT false false).m.queue = [] := by
  decide

/-- Witness for C4 at the concrete swallowed-exception dispatch. -/
theorem c4_witness :
    hF4.filter = true ∧
      (accVal behC4 (Manager.send behC4 mC4 ev0 "d" PTarget.noneT false false).ev
          [hG4] (PyVal.bool false)).truthyNN = true ∧
      (Manager.send behC4 mC4 ev0 "d" PTarget.noneT false false).res
        = SendRes.val (accVal behC4
            (Manager.send behC4 mC4 ev0 "d" PTarget.noneT false false).ev
            [hG4] (PyVal.bool false)) :=
  (c4_send_errors behC4 mC4 ev0 "d" PTarget.noneT false false).2.2.2 rfl [hG4] hF4
    (by decide) (by decide) (by decide)

theorem send_queue_pushed (beh : Beh) (m : Manager) (ev : EventV) (ch : String)
    (tg : PTarget) (er lg : Bool) :
    (Manager.send beh m ev ch tg er lg).m.queue
      = m.queue ++ (Manager.send beh m ev ch tg er lg).pushed := by
  have hout : Manager.send beh m ev ch tg er lg
      = sendLoop beh lg er { ev with channel := some ch, target := m.defaultTarget tg }
        (m.resolvedChain ch tg) (PyVal.bool false)
        { m with channels := (Manager.handlers m.channels m.hset (m.dispatchKey ch tg)).2 }
        [] [] := rfl
  rw [hout]
  obtain ⟨T, _, hT2, hT3⟩ := sendLoop_frame beh lg er _ (m.resolvedChain ch tg)
    (PyVal.bool false)
    { m with channels := (Manager.handlers m.channels m.hset (m.dispatchKey ch tg)).2 }
    [] []
  rw [List.nil_append] at hT2
  rw [hT3, hT2]

theorem flushGo_char (beh : Beh) :
    ∀ (q : List QI) (m : Manager) (tr ps : List QI),
      ∃ n D, n ≤ q.length ∧
        (flushGo beh q m tr ps).trace = tr ++ q.take n ∧
        ((flushGo beh q m tr ps).aborted = false →
          (flushGo beh q m tr ps).trace = tr ++ q) ∧
        (flushGo beh q m tr ps).pushed = ps ++ D ∧
        (flushGo beh q m tr ps).m.queue = m.queue ++ D := by
  intro q
  induction q with
  | nil =>
    intro m tr ps
    exact ⟨0, [], by simp, by simp [flushGo], by simp [flushGo], by simp [flushGo],
      by simp [flushGo]⟩
  | cons it q ih =>
    intro m tr ps
    obtain ⟨ev, ch, tg⟩ := it
    simp only [flushGo]
    have hq := send_queue_pushed beh m ev ch tg false true
    cases hres : (Manager.send beh m ev ch tg false true).res with
    | val v =>
      simp only
      obtain ⟨n, D, hn, h1, h2, h3, h4⟩ := ih (Manager.send beh m ev ch tg false true).m
        (tr ++ [(ev, ch, tg)]) (ps ++ (Manager.send beh m ev ch tg false true).pushed)
      refine ⟨n + 1, (Manager.send beh m ev ch tg false true).pushed ++ D, by simpa using hn,
        ?_, ?_, ?_, ?_⟩
      · rw [h1]; simp
      · intro hab
        rw [h2 hab]; simp
      · rw [h3]; simp
      · rw [h4, hq]; simp
    | sigRaised =>
      simp only
      exact ⟨1, (Manager.send beh m ev ch tg false true).pushed, by simp, by simp,
        by simp, by simp, by rw [hq]⟩
    | errRaised =>
      simp only
      exact ⟨1, (Manager.send beh m ev ch tg false true).pushed, by simp, by simp,
        by simp, by simp, by rw [hq]⟩

/-- C7 (corrected): `flush` on the root snapshots the queue into a
fresh empty one before dispatching; the triples passed to `send` are
a prefix of the snapshot in FIFO push order — the whole snapshot
whenever no exception escapes a `send`, while a propagating signal
abandons the remainder; everything pushed during the flush is
exactly the new queue and is not dispatched within the same flush;
`push` appends at the tail; and on a non-root component `flush`
delegates to the manager. -/
theorem c7_flush (beh : Beh) (m : Manager) :
    (∀ (ev : EventV) (ch : String) (tg : PTarget),
        (m.push ev ch tg).queue = m.queue ++ [m.pushItem ev ch tg]) ∧
    (∃ n, n ≤ m.queue.length ∧
        (Manager.flush beh m).trace = m.queue.take n) ∧
    ((Manager.flush beh m).aborted = false →
        (Manager.flush beh m).trace = m.queue) ∧
    ((Manager.flush beh m).m.queue = (Manager.flush beh m).pushed) ∧
    (∀ t : MTree, MTree.flush beh (MTree.child t) = t.flush beh) := by
  obtain ⟨n, D, hn, h1, h2, h3, h4⟩ :=
    flushGo_char beh m.queue { m with queue := [] } [] []
  refine ⟨fun ev ch tg => rfl, ⟨n, hn, ?_⟩, ?_, ?_, fun t => rfl⟩
  · rw [show Manager.flush beh m = flushGo beh m.queue { m with queue := [] } [] []
      from rfl, h1]
    simp
  · intro hab
    rw [show Manager.flush beh m = flushGo beh m.queue { m with queue := [] } [] []
      from rfl, h2 hab]
    simp
  · rw [show Manager.flush beh m = flushGo beh m.queue { m with queue := [] } [] []
      from rfl, h3, h4]

/-- C7 counterexample: with a signal-raising handler on the first of
two queued events, flush passes only the first snapshotted triple to
`send` — the remainder of the snapshot is abandoned, refuting the
claim that each snapshotted triple is sent. -/
theorem c7_counterexample :
    mC7.queue.length = 2 ∧
      (Manager.flush behC7 mC7).trace = [(ev0, "c", PTarget.noneT)] ∧
      (Manager.flush behC7 mC7).aborted = true := by
  decide

/-- Witness for C7 at a concrete non-aborting flush. -/
theorem c7_witness :
    (Manager.flush behC1 mC7w).trace = mC7w.queue :=
  (c7_flush behC1 mC7w).2.2.1 (by decide)

theorem getTicksW_congr (w w2 : World) (x : Nat)
    (h1 : (w2 x).tickId = (w x).tickId) (h2 : (w2 x).varTicks = (w x).varTicks)
    (h3 : (w2 x).comps = (w x).comps) (h4 : (w2 x).hidden = (w x).hidden)
    (h5 : ∀ c, (w2 c).tickId = (w c).tickId) :
    getTicksW w2 x = getTicksW w x := by
  unfold getTicksW
  rw [h1, h2, h3, h4]
  have hfm : ∀ (l : List Nat),
      l.filterMap (fun c => (w2 c).tickId) = l.filterMap (fun c => (w c).tickId) :=
    fun l => List.filterMap_congr (fun c _ => h5 c)
  rw [hfm, hfm]

theorem walk_nil (fuel : Nat) (w : World) (x : Nat) :
    walkLoop (fuel + 1) w x x 0 [] [] [] [] = [] := by
  simp [walkLoop, hpred]

theorem registerHidden_leaf (fuel : Nat) (w : World) (x : Nat)
    (hleaf : (w x).comps = []) (hmgr : (w ((w x).mgr)).mgr = (w x).mgr) :
    ∀ j, registerHidden (fuel + 1) w x j = w j := by
  intro j
  simp only [registerHidden, hleaf, walk_nil, List.foldl_nil]
  have heta : ∀ c : Comp, { c with hidden := c.hidden } = c := fun c => rfl
  rw [heta]
  have hupdw : ∀ i jj, upd w i (w i) jj = w jj := by
    intro i jj
    by_cases hj : jj = i
    · rw [hj, upd_same]
    · rw [upd_ne _ _ _ _ hj]
  have hx : (upd w ((w x).mgr) (w ((w x).mgr)) x).mgr = (w x).mgr := by
    rw [hupdw]
  rw [hx]  
  rw [hupdw ((w x).mgr) ((w x).mgr), hmgr]
  have hcond : ¬((w x).mgr ≠ (w x).mgr) := fun hcc => hcc rfl
  rw [if_neg hcond]
  simp only [hupdw]
  have hfl : ∀ l : List Nat, l.filter (fun c => !(([] : List Nat).contains c)) = l := by
    intro l
    apply List.filter_eq_self.mpr
    intro a _
    rfl
  by_cases hj : j = (w x).mgr
  · rw [hj, upd_same, hfl]
  · rw [upd_ne _ _ _ _ hj, hupdw]

theorem mAddW_fold_pairs (p : Nat) :
    ∀ (ps : List (HandlerD × String)) (w : World),
      (∀ j, j ≠ p → (ps.foldl (fun wa q => mAddW wa p q.1 q.2) w) j = w j) ∧
        (ps.foldl (fun wa q => mAddW wa p q.1 q.2) w) p
          = { w p with hset := addPairsH (w p).hset ps,
                       chans := addPairsD (w p).chans ps } := by
  intro ps
  induction ps with
  | nil =>
    intro w
    exact ⟨fun j _ => rfl, rfl⟩
  | cons q ps ih =>
    intro w
    simp only [List.foldl_cons]
    obtain ⟨ihne, ihp⟩ := ih (mAddW w p q.1 q.2)
    constructor
    · intro j hj
      rw [ihne j hj]
      unfold mAddW
      rw [upd_ne _ _ _ _ hj]
    · rw [ihp]
      unfold mAddW
      rw [upd_same]
      rfl

theorem double_fold_pairs (p : Nat) (xc : Option String) :
    ∀ (hs : List HandlerD) (w : World),
      hs.foldl (fun wa h => (regKeys xc h).foldl (fun wb k => mAddW wb p h k) wa) w
        = (ownPairs xc hs).foldl (fun wa q => mAddW wa p q.1 q.2) w := by
  intro hs
  induction hs with
  | nil => intro w; rfl
  | cons h hs ih =>
    intro w
    simp only [List.foldl_cons, ownPairs, List.map_cons, List.flatten_cons]
    rw [List.foldl_append, ih, List.foldl_map]
    rfl

theorem reTarget_eq (w : World) (c : Nat) (n : String) (pl : List Nat)
    (ch : String) (t : Option String) :
    reTarget w c (n, pl, ch, t) = (n, pl, ch, orChan t ((w c).channel)) := by
  cases t <;> rfl

theorem orChan_same (t : Option String) : orChan t t = t := by
  cases t <;> rfl

theorem leafReg (fuel : Nat) (w : World) (x p : Nat) (hxp : x ≠ p)
    (hroot : (w p).mgr = p) (hleaf : (w x).comps = []) :
    (∀ j, j ≠ x → j ≠ p → regW (fuel + 2) w x p j = w j) ∧
      regW (fuel + 2) w x p x = { w x with mgr := p } ∧
      regW (fuel + 2) w x p p =
        { w p with
            hset := addPairsH (w p).hset (ownPairs (w x).channel (w x).ownH),
            chans := addPairsD (w p).chans (ownPairs (w x).channel (w x).ownH),
            comps := setAddN (w p).comps x,
            queue := (w p).queue
              ++ [("Registered", [x, p], "registered",
                  orChan ((w x).channel) ((w p).channel))],
            ticks := (getTicksW w x).foldl setAddN (w p).ticks } := by
  have hpx : p ≠ x := Ne.symm hxp
  simp only [regW]
  rw [double_fold_pairs p ((w x).channel) ((w x).ownH) w]
  obtain ⟨h1ne, h1p⟩ := mAddW_fold_pairs p (ownPairs (w x).channel (w x).ownH) w
  set w1 : World :=
    (ownPairs (w x).channel (w x).ownH).foldl (fun wa q => mAddW wa p q.1 q.2) w
  have h1x : w1 x = w x := h1ne x hxp
  set w2 : World := upd w1 x { w1 x with mgr := p }
  have h2x : w2 x = { w x with mgr := p } := by
    rw [show w2 x = { w1 x with mgr := p } from upd_same w1 x _, h1x]
  have h2p : w2 p = w1 p := upd_ne w1 x p _ hpx
  have h2ne : ∀ j, j ≠ x → j ≠ p → w2 j = w j := by
    intro j hjx hjp
    rw [show w2 j = w1 j from upd_ne w1 x j _ hjx, h1ne j hjp]
  rw [if_pos hpx]
  set w3 : World := upd w2 p { w2 p with comps := setAddN (w2 p).comps x }
  have h3p : w3 p = { w p with
      hset := addPairsH (w p).hset (ownPairs (w x).channel (w x).ownH),
      chans := addPairsD (w p).chans (ownPairs (w x).channel (w x).ownH),
      comps := setAddN (w p).comps x } := by
    rw [show w3 p = { w2 p with comps := setAddN (w2 p).comps x } from upd_same w2 p _,
      h2p, h1p]
  have h3x : w3 x = { w x with mgr := p } := by
    rw [show w3 x = w2 x from upd_ne w2 p x _ hxp, h2x]
  have h3ne : ∀ j, j ≠ x → j ≠ p → w3 j = w j := by
    intro j hjx hjp
    rw [show w3 j = w2 j from upd_ne w2 p j _ hjp, h2ne j hjx hjp]
  have h3xc : (w3 x).channel = (w x).channel := by rw [h3x]
  have h3pc : (w3 p).channel = (w p).channel := by rw [h3p]
  have hpush : pushW (fuel + 1 + 1) w3 x
      ("Registered", [x, p], "registered", (w3 x).channel)
      = upd w3 p { w3 p with queue := (w3 p).queue
          ++ [("Registered", [x, p], "registered",
              orChan ((w3 x).channel) ((w3 p).channel))] } := by
    have hxm : (w3 x).mgr = p := by rw [h3x]
    have hpm : (w3 p).mgr = p := by rw [h3p]; exact hroot
    simp only [pushW, hxm, hpm]
    rw [reTarget_eq, orChan_same, reTarget_eq]
    rw [if_neg hpx, if_pos trivial]
  rw [hpush, h3xc, h3pc]
  set item : WQI := ("Registered", [x, p], "registered",
    orChan ((w x).channel) ((w p).channel))
  set w4 : World := upd w3 p { w3 p with queue := (w3 p).queue ++ [item] }
  have h4p : w4 p = { w p with
      hset := addPairsH (w p).hset (ownPairs (w x).channel (w x).ownH),
      chans := addPairsD (w p).chans (ownPairs (w x).channel (w x).ownH),
      comps := setAddN (w p).comps x,
      queue := (w p).queue ++ [item] } := by
    rw [show w4 p = { w3 p with queue := (w3 p).queue ++ [item] } from upd_same w3 p _,
      h3p]
  have h4x : w4 x = { w x with mgr := p } := by
    rw [show w4 x = w3 x from upd_ne w3 p x _ hxp, h3x]
  have h4ne : ∀ j, j ≠ x → j ≠ p → w4 j = w j := by
    intro j hjx hjp
    rw [show w4 j = w3 j from upd_ne w3 p j _ hjp, h3ne j hjx hjp]
  have h5 : ∀ j, registerHidden (fuel + 1) w4 x j = w4 j := by
    apply registerHidden_leaf
    · rw [h4x]; exact hleaf
    · have hm4 : (w4 x).mgr = p := by rw [h4x]
      rw [hm4, h4p]
      show (w p).mgr = p
      exact hroot
  set w5 : World := registerHidden (fuel + 1) w4 x
  have h5x : w5 x = w4 x := h5 x
  have hmg2 : (w5 x).mgr = p := by rw [h5x, h4x]
  rw [hmg2]
  refine ⟨?_, ?_, ?_⟩
  · intro j hjx hjp
    rw [upd_ne _ _ _ _ hjp, h5 j, h4ne j hjx hjp]
  · rw [upd_ne _ _ _ _ hxp, h5x, h4x]
  · rw [upd_same]
    have hgt : getTicksW w5 x = getTicksW w x := by
      apply getTicksW_congr
      · rw [h5x, h4x]
      · rw [h5x, h4x]
      · rw [h5x, h4x]
      · rw [h5x, h4x]
      · intro c
        rw [h5 c]
        by_cases hc : c = x
        · rw [hc, h4x]
        · by_cases hcp : c = p
          · rw [hcp, h4p]
          · rw [h4ne c hc hcp]
    rw [hgt, h5 p, h4p]

/-! ### Dictionary lemmas for the register/unregister round trip -/

theorem dLook_eq_none (d : Chans) (k : String) (hk : k ∉ d.map Prod.fst) :
    dLook d k = Option.none := by
  induction d with
  | nil => rfl
  | cons kv d ih =>
    simp only [List.map_cons, List.mem_cons] at hk
    push_neg at hk
    rw [show dLook (kv :: d) k = if kv.1 = k then some kv.2 else dLook d k from rfl,
      if_neg (fun he => hk.1 he.symm)]
    exact ih hk.2

theorem mem_keys_of_dLook (d : Chans) (k : String) (b : Bucket)
    (h : dLook d k = some b) : k ∈ d.map Prod.fst := by
  by_contra hk
  rw [dLook_eq_none d k hk] at h
  cases h

theorem dLook_append (d1 d2 : Chans) (k : String) (h : dLook d1 k = Option.none) :
    dLook (d1 ++ d2) k = dLook d2 k := by
  induction d1 with
  | nil => rfl
  | cons kv d ih =>
    rw [List.cons_append]
    rw [show dLook (kv :: d) k = if kv.1 = k then some kv.2 else dLook d k from rfl] at h
    rw [show dLook (kv :: (d ++ d2)) k
      = if kv.1 = k then some kv.2 else dLook (d ++ d2) k from rfl]
    by_cases he : kv.1 = k
    · rw [if_pos he] at h; cases h
    · rw [if_neg he] at h
      rw [if_neg he]
      exact ih h

theorem dLook_mid (pre rest : Chans) (k : String) (b : Bucket)
    (hk : k ∉ pre.map Prod.fst) :
    dLook (pre ++ (k, b) :: rest) k = some b := by
  rw [dLook_append _ _ _ (dLook_eq_none pre k hk)]
  rw [show dLook ((k, b) :: rest) k = if (k, b).1 = k then some b else dLook rest k from rfl,
    if_pos rfl]

theorem dSet_map_id (l : Chans) (k : String) (b : Bucket) (hl : k ∉ l.map Prod.fst) :
    l.map (fun kv => if kv.1 = k then (k, b) else kv) = l := by
  induction l with
  | nil => rfl
  | cons kv l ih =>
    simp only [List.map_cons, List.mem_cons] at hl ⊢
    push_neg at hl
    rw [if_neg (fun he => hl.1 he.symm), ih hl.2]

theorem dSet_unique (pre rest : Chans) (k : String) (b0 b : Bucket)
    (hpre : k ∉ pre.map Prod.fst) (hrest : k ∉ rest.map Prod.fst) :
    dSet (pre ++ (k, b0) :: rest) k b = pre ++ (k, b) :: rest := by
  unfold dSet
  rw [List.map_append, List.map_cons, dSet_map_id pre k b hpre,
    dSet_map_id rest k b hrest, if_pos rfl]

theorem dDel_unique (pre rest : Chans) (k : String) (b : Bucket)
    (hpre : k ∉ pre.map Prod.fst) (hrest : k ∉ rest.map Prod.fst) :
    dDel (pre ++ (k, b) :: rest) k = pre ++ rest := by
  have hfid : ∀ (l : Chans), k ∉ l.map Prod.fst →
      l.filter (fun kv => kv.1 != k) = l := by
    intro l hl
    apply List.filter_eq_self.mpr
    intro kv hkv
    simp only [bne_iff_ne, ne_eq, decide_eq_true_eq]
    intro he
    exact hl (he ▸ List.mem_map_of_mem Prod.fst hkv)
  unfold dDel
  rw [List.filter_append, List.filter_cons, hfid pre hpre, hfid rest hrest]
  simp

theorem removeKeyStep_at (h : HandlerD) (pre rest : Chans) (k : String) (b : Bucket)
    (hpre : k ∉ pre.map Prod.fst) (hrest : k ∉ rest.map Prod.fst) (hb : b ≠ []) :
    removeKeyStep h (pre ++ (k, b) :: rest) k
      = pre ++ (if (b.erase h).isEmpty then [] else [(k, b.erase h)]) ++ rest := by
  have hlook : dLook (pre ++ (k, b) :: rest) k = some b := dLook_mid pre rest k b hpre
  unfold removeKeyStep
  simp only [dGetD, hlook]
  by_cases hmem : h ∈ b
  · rw [if_pos hmem, dSet_unique pre rest k b (b.erase h) hpre hrest]
    have hget : dGet (pre ++ (k, b.erase h) :: rest) k = b.erase h := by
      unfold dGet
      rw [dLook_mid pre rest k _ hpre]
      rfl
    rw [hget]
    by_cases hemp : (b.erase h).isEmpty
    · rw [if_pos hemp, if_pos hemp, dDel_unique pre rest k _ hpre hrest]
      simp
    · rw [if_neg hemp, if_neg hemp]
      simp
  · rw [if_neg hmem]
    have hget : dGet (pre ++ (k, b) :: rest) k = b := by
      unfold dGet
      rw [hlook]
      rfl
    rw [hget]
    have hbe : b.isEmpty = false := by
      cases b with
      | nil => exact absurd rfl hb
      | cons a l => rfl
    rw [List.erase_of_not_mem hmem, hbe]
    simp

theorem removeD_go (h : HandlerD) (cur : Chans) : ∀ (pre : Chans),
    ((pre ++ cur).map Prod.fst).Nodup → (∀ kv ∈ cur, kv.2 ≠ []) →
    (cur.map Prod.fst).foldl (removeKeyStep h) (pre ++ cur)
      = pre ++ cur.filterMap (eraseEnt h) := by
  induction cur with
  | nil => intro pre _ _; rfl
  | cons kv rest ih =>
    intro pre hnd hne
    obtain ⟨k, b⟩ := kv
    rw [show (pre ++ (k, b) :: rest).map Prod.fst
      = pre.map Prod.fst ++ k :: rest.map Prod.fst by simp] at hnd
    obtain ⟨hnd1, hnd2, hdisj⟩ := List.nodup_append.mp hnd
    have hkpre : k ∉ pre.map Prod.fst := fun hk => hdisj hk (List.mem_cons_self _ _)
    have hkrest : k ∉ rest.map Prod.fst := (List.nodup_cons.mp hnd2).1
    have hb : b ≠ [] := hne (k, b) (List.mem_cons_self _ _)
    simp only [List.map_cons, List.foldl_cons]
    rw [removeKeyStep_at h pre rest k b hkpre hkrest hb]
    have hihnd : (((pre ++ (if (b.erase h).isEmpty then []
        else [(k, b.erase h)])) ++ rest).map Prod.fst).Nodup := by
      have hsubE : ((if (b.erase h).isEmpty then ([] : Chans)
          else [(k, b.erase h)]).map Prod.fst).Sublist [k] := by
        by_cases hemp : (b.erase h).isEmpty
        · rw [if_pos hemp]; exact List.nil_sublist _
        · rw [if_neg hemp]; exact List.Sublist.refl _
      have hs1 := (hsubE.append_right (rest.map Prod.fst)).append_left (pre.map Prod.fst)
      apply List.Nodup.sublist _ hnd
      simpa using hs1
    rw [ih (pre ++ (if (b.erase h).isEmpty then [] else [(k, b.erase h)])) hihnd
      (fun kv hkv => hne kv (List.mem_cons_of_mem _ hkv))]
    rw [List.append_assoc]
    congr 1
    by_cases hemp : (b.erase h).isEmpty
    · have hf : eraseEnt h (k, b) = Option.none := by
        unfold eraseEnt
        rw [if_pos hemp]
      rw [List.filterMap_cons_none hf, if_pos hemp]
      rfl
    · have hf : eraseEnt h (k, b) = some (k, b.erase h) := by
        unfold eraseEnt
        rw [if_neg hemp]
      rw [List.filterMap_cons_some hf, if_neg hemp]
      rfl

theorem removeD_char (h : HandlerD) (d : Chans)
    (hnd : (d.map Prod.fst).Nodup) (hne : ∀ kv ∈ d, kv.2 ≠ []) :
    removeD d h Option.none = d.filterMap (eraseEnt h) := by
  have := removeD_go h d [] (by simpa using hnd) hne
  simpa using this

theorem extras_filterMap (h : HandlerD) (ps : List (HandlerD × String)) :
    (ps.map (fun q => (q.2, ([q.1] : Bucket)))).filterMap (eraseEnt h)
      = (ps.filter (fun q => !(q.1 == h))).map (fun q => (q.2, [q.1])) := by
  induction ps with
  | nil => rfl
  | cons q ps ih =>
    obtain ⟨a, k⟩ := q
    simp only [List.map_cons, List.filter_cons]
    by_cases hq : a = h
    · have hf : eraseEnt h (k, ([a] : Bucket)) = Option.none := by
        unfold eraseEnt
        show (if (([a] : Bucket).erase h).isEmpty = true then Option.none else _) = _
        rw [hq, List.erase_cons_head]
        rfl
      have hqb : (!((a, k).1 == h)) = false := by
        show (!(a == h)) = false
        rw [beq_iff_eq.mpr hq]
        rfl
      rw [List.filterMap_cons_none hf, ih, hqb]
      rfl
    · have hf : eraseEnt h (k, ([a] : Bucket)) = some (k, [a]) := by
        unfold eraseEnt
        rw [List.erase_of_not_mem
          (fun hm => hq ((List.mem_singleton.mp hm).symm))]
        rfl
      have hqb : (!((a, k).1 == h)) = true := by
        show (!(a == h)) = true
        rw [beq_eq_false_iff_ne.mpr hq]
        rfl
      rw [List.filterMap_cons_some hf, ih, hqb]
      rfl

theorem filterMap_keep (h : HandlerD) (d0 : Chans)
    (hfresh : ∀ kv ∈ d0, h ∉ kv.2) (hne : ∀ kv ∈ d0, kv.2 ≠ []) :
    d0.filterMap (eraseEnt h) = d0 := by
  induction d0 with
  | nil => rfl
  | cons kv d ih =>
    have hbe : kv.2.isEmpty = false := by
      have := hne kv (List.mem_cons_self _ _)
      cases hkv : kv.2 with
      | nil => exact absurd hkv this
      | cons a l => rfl
    have hf : eraseEnt h kv = some (kv.1, kv.2) := by
      unfold eraseEnt
      rw [List.erase_of_not_mem (hfresh kv (List.mem_cons_self _ _)), hbe]
      rfl
    rw [List.filterMap_cons_some hf,
      ih (fun kv h => hfresh _ (List.mem_cons_of_mem _ h))
        (fun kv h => hne _ (List.mem_cons_of_mem _ h))]

theorem remove_fold_extras (d0 : Chans) (S : List HandlerD) :
    ∀ (ps : List (HandlerD × String)),
      ((d0 ++ ps.map (fun q => (q.2, ([q.1] : Bucket)))).map Prod.fst).Nodup →
      (∀ kv ∈ d0, kv.2 ≠ []) →
      (∀ h ∈ S, ∀ kv ∈ d0, h ∉ kv.2) →
      S.foldl (fun d h => removeD d h Option.none)
          (d0 ++ ps.map (fun q => (q.2, [q.1])))
        = d0 ++ (ps.filter (fun q => !(S.contains q.1))).map (fun q => (q.2, [q.1])) := by
  induction S with
  | nil =>
    intro ps _ _ _
    simp [List.filter_true]
  | cons h S ih =>
    intro ps hnd hne hfr
    simp only [List.foldl_cons]
    have hstep : removeD (d0 ++ ps.map (fun q => (q.2, [q.1]))) h Option.none
        = d0 ++ (ps.filter (fun q => !(q.1 == h))).map (fun q => (q.2, [q.1])) := by
      rw [removeD_char h _ hnd ?hne2]
      case hne2 =>
        intro kv hkv
        rcases List.mem_append.mp hkv with h1 | h2
        · exact hne kv h1
        · obtain ⟨q, _, rfl⟩ := List.mem_map.mp h2
          simp
      rw [List.filterMap_append,
        filterMap_keep h d0 (hfr h (List.mem_cons_self _ _)) hne, extras_filterMap]
    rw [hstep]
    have hihnd : ((d0 ++ (ps.filter (fun q => !(q.1 == h))).map
        (fun q => (q.2, ([q.1] : Bucket)))).map Prod.fst).Nodup := by
      apply List.Nodup.sublist _ hnd
      apply List.Sublist.map
      exact ((List.filter_sublist ps).map _).append_left d0
    rw [ih (ps.filter (fun q => !(q.1 == h))) hihnd hne
      (fun h' hh' => hfr h' (List.mem_cons_of_mem _ hh'))]
    rw [List.filter_filter]
    have hpt : ps.filter (fun a => !(S.contains a.1) && !(a.1 == h))
        = ps.filter (fun q => !((h :: S).contains q.1)) := by
      apply List.filter_congr
      intro q _
      rw [List.contains_cons]
      simp [Bool.not_or, Bool.and_comm]
    rw [hpt]

theorem rm_fold_filter (S : List HandlerD) : ∀ (l : List HandlerD), l.Nodup →
    S.foldl (fun l h => if h ∈ l then l.erase h else l) l
      = l.filter (fun a => !(S.contains a)) := by
  induction S with
  | nil =>
    intro l _
    simp [List.filter_true]
  | cons h S ih =>
    intro l hnd
    simp only [List.foldl_cons]
    have hstep : (if h ∈ l then l.erase h else l) = l.filter (fun a => a != h) := by
      by_cases hm : h ∈ l
      · rw [if_pos hm, List.Nodup.erase_eq_filter hnd]
      · rw [if_neg hm]
        symm
        apply List.filter_eq_self.mpr
        intro b hb
        simp only [bne_iff_ne, ne_eq, decide_eq_true_eq]
        intro he
        exact hm (he ▸ hb)
    rw [hstep, ih _ (hnd.filter _), List.filter_filter]
    apply List.filter_congr
    intro a _
    rw [List.contains_cons]
    simp [Bool.not_or, Bool.and_comm, bne]

theorem addPairsH_filter (S : List HandlerD) (ps : List (HandlerD × String)) :
    ∀ (l : List HandlerD), (∀ q ∈ ps, q.1 ∈ S) →
      (addPairsH l ps).filter (fun a => !(S.contains a))
        = l.filter (fun a => !(S.contains a)) := by
  induction ps with
  | nil => intro l _; rfl
  | cons q ps ih =>
    intro l hq
    show (addPairsH (setAddH l q.1) ps).filter _ = _
    rw [ih (setAddH l q.1) (fun q' hq' => hq q' (List.mem_cons_of_mem _ hq'))]
    unfold setAddH
    by_cases hm : q.1 ∈ l
    · rw [if_pos hm]
    · rw [if_neg hm, List.filter_append]
      have hq1 : ([q.1].filter (fun a => !(S.contains a))) = [] := by
        have hc : S.contains q.1 = true := List.elem_iff.mpr (hq q (List.mem_cons_self _ _))
        rw [List.filter_cons, hc]
        rfl
      rw [hq1, List.append_nil]

theorem addPairsH_nodup (ps : List (HandlerD × String)) :
    ∀ (l : List HandlerD), l.Nodup → (addPairsH l ps).Nodup := by
  induction ps with
  | nil => intro l h; exact h
  | cons q ps ih =>
    intro l hnd
    show (addPairsH (setAddH l q.1) ps).Nodup
    apply ih
    unfold setAddH
    by_cases hm : q.1 ∈ l
    · rw [if_pos hm]; exact hnd
    · rw [if_neg hm]
      rw [List.nodup_append]
      exact ⟨hnd, List.nodup_singleton _,
        fun a ha hb => hm ((List.mem_singleton.mp hb) ▸ ha)⟩

theorem filter_foldl_setAddN (p : Nat → Bool) (S : List Nat) :
    ∀ (t : List Nat), (∀ a ∈ S, p a = false) →
      (S.foldl setAddN t).filter p = t.filter p := by
  induction S with
  | nil => intro t _; rfl
  | cons a S ih =>
    intro t hS
    simp only [List.foldl_cons]
    rw [ih _ (fun b hb => hS b (List.mem_cons_of_mem _ hb))]
    unfold setAddN
    by_cases hm : a ∈ t
    · rw [if_pos hm]
    · rw [if_neg hm, List.filter_append, List.filter_cons,
        hS a (List.mem_cons_self _ _)]
      simp

theorem addD_fresh (d : Chans) (h : HandlerD) (k : String)
    (hk : dLook d k = Option.none) :
    addD d h k = d ++ [(k, [h])] := by
  unfold addD dHas
  rw [hk]
  rfl

theorem addPairsD_fresh (ps : List (HandlerD × String)) :
    ∀ (d : Chans), (ps.map Prod.snd).Nodup →
      (∀ q ∈ ps, dLook d q.2 = Option.none) →
      addPairsD d ps = d ++ ps.map (fun q => (q.2, [q.1])) := by
  induction ps with
  | nil => intro d _ _; simp [addPairsD]
  | cons q ps ih =>
    intro d hnd hfr
    show addPairsD (addD d q.1 q.2) ps = _
    rw [addD_fresh d q.1 q.2 (hfr q (List.mem_cons_self _ _))]
    rw [ih (d ++ [(q.2, [q.1])]) ((List.nodup_cons.mp (by simpa using hnd)).2) ?fr2]
    case fr2 =>
      intro q' hq'
      rw [dLook_append _ _ _ (hfr q' (List.mem_cons_of_mem _ hq'))]
      have hne : q'.2 ≠ q.2 := by
        intro he
        exact (List.nodup_cons.mp (by simpa using hnd)).1
          (he ▸ List.mem_map_of_mem Prod.snd hq')
      rw [show dLook [(q.2, [q.1])] q'.2
        = if q.2 = q'.2 then some [q.1] else Option.none from rfl,
        if_neg (fun he => hne he.symm)]
    simp

theorem ownPairs_mem (xc : Option String) (hs : List HandlerD) :
    ∀ q ∈ ownPairs xc hs, q.1 ∈ hs := by
  intro q hq
  unfold ownPairs at hq
  rw [List.mem_flatten] at hq
  obtain ⟨l, hl, hql⟩ := hq
  rw [List.mem_map] at hl
  obtain ⟨h, hh, rfl⟩ := hl
  rw [List.mem_map] at hql
  obtain ⟨k, _, rfl⟩ := hql
  exact hh

theorem mem_setAddN (l : List Nat) (a b : Nat) :
    a ∈ setAddN l b ↔ a ∈ l ∨ a = b := by
  unfold setAddN
  by_cases hb : b ∈ l
  · rw [if_pos hb]
    constructor
    · exact Or.inl
    · rintro (h | rfl)
      · exact h
      · exact hb
  · rw [if_neg hb]
    simp

theorem setAddN_erase (l : List Nat) (a : Nat) (ha : a ∉ l) :
    (setAddN l a).erase a = l := by
  unfold setAddN
  rw [if_neg ha, List.erase_append_right _ ha, List.erase_cons_head, List.append_nil]

theorem mRemoveW_fold (p : Nat) (S : List HandlerD) :
    ∀ (w : World),
      (∀ j, j ≠ p → (S.foldl (fun wa h => mRemoveW wa p h Option.none) w) j = w j) ∧
        (S.foldl (fun wa h => mRemoveW wa p h Option.none) w) p
          = { w p with
              hset := S.foldl (fun l h => if h ∈ l then l.erase h else l) (w p).hset,
              chans := S.foldl (fun d h => removeD d h Option.none) (w p).chans } := by
  induction S with
  | nil => intro w; exact ⟨fun j _ => rfl, rfl⟩
  | cons h S ih =>
    intro w
    simp only [List.foldl_cons]
    obtain ⟨ihne, ihp⟩ := ih (mRemoveW w p h Option.none)
    constructor
    · intro j hj
      rw [ihne j hj]
      unfold mRemoveW
      rw [upd_ne _ _ _ _ hj]
    · rw [ihp]
      unfold mRemoveW
      rw [upd_same]

theorem dLook_isSome_of_mem (d : Chans) (k : String) (hk : k ∈ d.map Prod.fst) :
    dLook d k ≠ Option.none := by
  induction d with
  | nil => simp at hk
  | cons kv d ih =>
    rw [show dLook (kv :: d) k = if kv.1 = k then some kv.2 else dLook d k from rfl]
    by_cases he : kv.1 = k
    · rw [if_pos he]
      exact fun hc => by cases hc
    · rw [if_neg he]
      apply ih
      simp only [List.map_cons, List.mem_cons] at hk
      rcases hk with h1 | h2
      · exact absurd h1.symm he
      · exact h2

/-- C5: a `register(P)`/`unregister()` round trip on a leaf component `x`
whose handlers, bucket keys and ticks are fresh for the root manager `p`
restores every field of `p` except the event queue, which gains exactly
the Registered and Unregistered announcements, and leaves every other
component untouched. -/
theorem c5_register_unregister (fuel : Nat) (w : World) (x p : Nat)
    (hxp : x ≠ p)
    (hroot : (w p).mgr = p)
    (hself : (w x).mgr = x)
    (hleaf : (w x).comps = [])
    (hhs : (w x).hset = (w x).ownH)
    (hfh : ∀ h ∈ (w x).ownH, h ∉ (w p).hset)
    (hfb : ∀ h ∈ (w x).ownH, ∀ kv ∈ (w p).chans, h ∉ kv.2)
    (hknd : ((ownPairs (w x).channel (w x).ownH).map Prod.snd).Nodup)
    (hkfr : ∀ q ∈ ownPairs (w x).channel (w x).ownH,
      dLook (w p).chans q.2 = Option.none)
    (hndh : (w p).hset.Nodup)
    (hndk : ((w p).chans.map Prod.fst).Nodup)
    (hinv : ∀ kv ∈ (w p).chans, kv.2 ≠ [])
    (htd : ∀ t ∈ (w p).ticks, t ∉ getTicksW w x)
    (hxc : x ∉ (w p).comps) :
    (∀ j, j ≠ p → unregW (fuel + 2) (regW (fuel + 2) w x p) x j = w j) ∧
      unregW (fuel + 2) (regW (fuel + 2) w x p) x p
        = { w p with queue := (w p).queue
            ++ [("Registered", [x, p], "registered",
                orChan ((w x).channel) ((w p).channel)),
                ("Unregistered", [x, p], "unregistered",
                orChan ((w x).channel) ((w p).channel))] } := by
  have hpx : p ≠ x := Ne.symm hxp
  set ps : List (HandlerD × String) := ownPairs (w x).channel (w x).ownH with hps
  obtain ⟨hWne, hWx, hWp⟩ := leafReg fuel w x p hxp hroot hleaf
  set W : World := regW (fuel + 2) w x p with hWdef
  simp only [unregW]
  have hWxm : (W x).mgr = p := by rw [hWx]
  have hWxh : (W x).hset = (w x).ownH := by
    rw [hWx]
    show (w x).hset = (w x).ownH
    exact hhs
  rw [hWxm, hWxh]
  obtain ⟨u1ne, u1p⟩ := mRemoveW_fold p ((w x).ownH) W
  set u1 : World := ((w x).ownH).foldl (fun wa h => mRemoveW wa p h Option.none) W
  have hset_r : ((w x).ownH).foldl (fun l h => if h ∈ l then l.erase h else l)
      ((W p).hset) = (w p).hset := by
    have h1 : (W p).hset = addPairsH (w p).hset ps := by rw [hWp]
    rw [h1, rm_fold_filter _ _ (addPairsH_nodup _ _ hndh),
      addPairsH_filter _ _ _ (fun q hq => ownPairs_mem _ _ q hq)]
    apply List.filter_eq_self.mpr
    intro a ha
    cases hcc : (w x).ownH.contains a with
    | false => rfl
    | true => exact absurd ha (hfh a (List.elem_iff.mp hcc))
  have hchans_r : ((w x).ownH).foldl (fun d h => removeD d h Option.none)
      ((W p).chans) = (w p).chans := by
    have hkm : (ps.map (fun q => (q.2, ([q.1] : Bucket)))).map Prod.fst
        = ps.map Prod.snd := by
      rw [List.map_map]
      rfl
    have hkeys : ((((w p).chans)
        ++ ps.map (fun q => (q.2, ([q.1] : Bucket)))).map Prod.fst).Nodup := by
      rw [List.map_append, hkm, List.nodup_append]
      refine ⟨hndk, hknd, ?_⟩
      intro k hk1 hk2
      obtain ⟨q, hq, rfl⟩ := List.mem_map.mp hk2
      exact dLook_isSome_of_mem _ _ hk1 (hkfr q hq)
    have h1 : (W p).chans = (w p).chans ++ ps.map (fun q => (q.2, [q.1])) := by
      rw [hWp]
      show addPairsD (w p).chans ps = _
      exact addPairsD_fresh ps _ hknd hkfr
    rw [h1, remove_fold_extras _ _ _ hkeys hinv hfb]
    have hnil : ps.filter (fun q => !((w x).ownH.contains q.1)) = [] := by
      apply List.filter_eq_nil_iff.mpr
      intro q hq
      have hc : (w x).ownH.contains q.1 = true :=
        List.elem_iff.mpr (ownPairs_mem _ _ q hq)
      rw [hc]
      simp
    rw [hnil]
    simp
  have hu1p : u1 p = { w p with
      comps := setAddN (w p).comps x,
      queue := (w p).queue ++ [("Registered", [x, p], "registered",
        orChan ((w x).channel) ((w p).channel))],
      ticks := (getTicksW w x).foldl setAddN (w p).ticks } := by
    rw [u1p, hset_r, hchans_r, hWp]
  have hu1x : u1 x = { w x with mgr := p } := by
    rw [u1ne x hxp, hWx]
  have hu1ne : ∀ j, j ≠ x → j ≠ p → u1 j = w j := fun j hjx hjp =>
    (u1ne j hjp).trans (hWne j hjx hjp)
  have hcmem : x ∈ (u1 p).comps := by
    rw [hu1p]
    show x ∈ setAddN (w p).comps x
    exact (mem_setAddN _ _ _).mpr (Or.inr rfl)
  rw [if_pos hcmem]
  set u2 : World := upd u1 p { u1 p with comps := (u1 p).comps.erase x }
  have hc1 : (u1 p).comps = setAddN (w p).comps x := by rw [hu1p]
  have hu2p : u2 p = { w p with
      queue := (w p).queue ++ [("Registered", [x, p], "registered",
        orChan ((w x).channel) ((w p).channel))],
      ticks := (getTicksW w x).foldl setAddN (w p).ticks } := by
    rw [show u2 p = { u1 p with comps := (u1 p).comps.erase x } from upd_same u1 p _,
      hc1, setAddN_erase _ _ hxc, hu1p]
  have hu2x : u2 x = { w x with mgr := p } := by
    rw [show u2 x = u1 x from upd_ne u1 p x _ hxp, hu1x]
  have hu2ne : ∀ j, j ≠ x → j ≠ p → u2 j = w j := by
    intro j hjx hjp
    rw [show u2 j = u1 j from upd_ne u1 p j _ hjp, hu1ne j hjx hjp]
  have hgt : getTicksW u2 x = getTicksW w x := by
    apply getTicksW_congr
    · rw [hu2x]
    · rw [hu2x]
    · rw [hu2x]
    · rw [hu2x]
    · intro c
      by_cases hc : c = x
      · rw [hc, hu2x]
      · by_cases hcp : c = p
        · rw [hcp, hu2p]
        · rw [hu2ne c hc hcp]
  rw [hgt]
  have htickr : ((u2 p).ticks).filter (fun t => !((getTicksW w x).contains t))
      = (w p).ticks := by
    have hc2 : (u2 p).ticks = (getTicksW w x).foldl setAddN (w p).ticks := by
      rw [hu2p]
    rw [hc2, filter_foldl_setAddN _ _ _ ?hfalse]
    case hfalse =>
      intro a ha
      have hc : (getTicksW w x).contains a = true := List.elem_iff.mpr ha
      rw [hc]
      rfl
    apply List.filter_eq_self.mpr
    intro a ha
    have hc : (getTicksW w x).contains a = false := by
      cases hcc : (getTicksW w x).contains a with
      | false => rfl
      | true => exact absurd (List.elem_iff.mp hcc) (htd a ha)
    rw [hc]
    rfl
  set u3 : World := upd u2 p { u2 p with
    ticks := (u2 p).ticks.filter (fun t => !((getTicksW w x).contains t)) }
  have hu3p : u3 p = { w p with
      queue := (w p).queue
        ++ [("Registered", [x, p], "registered",
            orChan ((w x).channel) ((w p).channel))] } := by
    rw [show u3 p = { u2 p with
        ticks := (u2 p).ticks.filter (fun t => !((getTicksW w x).contains t)) }
      from upd_same u2 p _, htickr, hu2p]
  have hu3x : u3 x = { w x with mgr := p } := by
    rw [show u3 x = u2 x from upd_ne u2 p x _ hxp, hu2x]
  have hu3ne : ∀ j, j ≠ x → j ≠ p → u3 j = w j := by
    intro j hjx hjp
    rw [show u3 j = u2 j from upd_ne u2 p j _ hjp, hu2ne j hjx hjp]
  have hu3c : (u3 x).channel = (w x).channel := by rw [hu3x]
  have hu3pc : (u3 p).channel = (w p).channel := by rw [hu3p]
  have hpush : pushW (fuel + 2) u3 x
      ("Unregistered", [x, p], "unregistered", (u3 x).channel)
      = upd u3 p { u3 p with queue := (u3 p).queue
          ++ [("Unregistered", [x, p], "unregistered",
              orChan ((u3 x).channel) ((u3 p).channel))] } := by
    have hxm : (u3 x).mgr = p := by rw [hu3x]
    have hpm : (u3 p).mgr = p := by
      rw [hu3p]
      show (w p).mgr = p
      exact hroot
    simp only [pushW, hxm, hpm]
    rw [reTarget_eq, orChan_same, reTarget_eq]
    rw [if_neg hpx, if_pos trivial]
  rw [hpush, hu3c, hu3pc]
  set item2 : WQI := ("Unregistered", [x, p], "unregistered",
    orChan ((w x).channel) ((w p).channel))
  set u4 : World := upd u3 p { u3 p with queue := (u3 p).queue ++ [item2] }
  have hu4p : u4 p = { w p with queue := (w p).queue
      ++ [("Registered", [x, p], "registered",
          orChan ((w x).channel) ((w p).channel)), item2] } := by
    rw [show u4 p = { u3 p with queue := (u3 p).queue ++ [item2] }
      from upd_same u3 p _, hu3p]
    show ({ w p with queue := ((w p).queue
      ++ [("Registered", [x, p], "registered",
          orChan ((w x).channel) ((w p).channel))]) ++ [item2] } : Comp)
      = _
    rw [List.append_assoc]
    rfl
  have hu4x : u4 x = { w x with mgr := p } := by
    rw [show u4 x = u3 x from upd_ne u3 p x _ hxp, hu3x]
  have hu4ne : ∀ j, j ≠ x → j ≠ p → u4 j = w j := by
    intro j hjx hjp
    rw [show u4 j = u3 j from upd_ne u3 p j _ hjp, hu3ne j hjx hjp]
  constructor
  · intro j hjp
    by_cases hjx : j = x
    · subst hjx
      rw [upd_same, hu4x]
      show ({ w j with mgr := j } : Comp) = w j
      exact (congrArg (fun m => ({ w j with mgr := m } : Comp)) hself.symm).trans rfl
    · rw [upd_ne _ _ _ _ hjx, hu4ne j hjx hjp]
  · rw [upd_ne _ _ _ _ hpx, hu4p]

/-- C5 counterexample: component 1 has a child 2; register(0) promotes 2
into the root's hidden set and unregister leaves it there, so the root's
hidden membership is not restored to its pre-register state. -/
theorem c5_counterexample :
    (wCex5 0).hidden = [] ∧ ((unregW 20 (regW 20 wCex5 1 0) 1) 0).hidden = [2] :=
  ⟨by decide, by decide⟩

/-- C5 witness: the round trip on the leaf component 1 with fresh
handler, key and tick restores root 0 except for the two queue
announcements. -/
theorem c5_witness :
    ((1 : Nat) ≠ 0 ∧ (wWit5 0).mgr = 0 ∧ (wWit5 1).mgr = 1 ∧ (wWit5 1).comps = []
      ∧ (wWit5 1).hset = (wWit5 1).ownH
      ∧ (∀ h ∈ (wWit5 1).ownH, h ∉ (wWit5 0).hset)
      ∧ (∀ h ∈ (wWit5 1).ownH, ∀ kv ∈ (wWit5 0).chans, h ∉ kv.2)
      ∧ ((ownPairs (wWit5 1).channel (wWit5 1).ownH).map Prod.snd).Nodup
      ∧ (∀ q ∈ ownPairs (wWit5 1).channel (wWit5 1).ownH,
          dLook (wWit5 0).chans q.2 = Option.none)
      ∧ (wWit5 0).hset.Nodup ∧ ((wWit5 0).chans.map Prod.fst).Nodup
      ∧ (∀ kv ∈ (wWit5 0).chans, kv.2 ≠ [])
      ∧ (∀ t ∈ (wWit5 0).ticks, t ∉ getTicksW wWit5 1)
      ∧ 1 ∉ (wWit5 0).comps) ∧
    unregW 20 (regW 20 wWit5 1 0) 1 0
      = { wWit5 0 with queue := (wWit5 0).queue
          ++ [("Registered", [1, 0], "registered",
              orChan ((wWit5 1).channel) ((wWit5 0).channel)),
              ("Unregistered", [1, 0], "unregistered",
              orChan ((wWit5 1).channel) ((wWit5 0).channel))] } :=
  ⟨by decide,
    (c5_register_unregister 18 wWit5 1 0 (by decide) (by decide) (by decide)
      (by decide) (by decide) (by decide) (by decide) (by decide) (by decide)
      (by decide) (by decide) (by decide) (by decide) (by decide)).2⟩

theorem dLook_dSet_self (d : Chans) (k : String) (b : Bucket) : ∀ _ : dHas d k = true,
    dLook (dSet d k b) k = some b := by
  induction d with
  | nil => intro hhas; simp [dHas, dLook] at hhas
  | cons kv d ih =>
    intro hhas
    unfold dSet
    rw [List.map_cons]
    by_cases he : kv.1 = k
    · rw [if_pos he]
      rw [show dLook ((k, b) :: d.map (fun kv => if kv.1 = k then (k, b) else kv)) k
        = if k = k then some b else dLook (d.map _) k from rfl, if_pos rfl]
    · rw [if_neg he]
      rw [show dLook (kv :: d.map (fun kv => if kv.1 = k then (k, b) else kv)) k
        = if kv.1 = k then some kv.2
          else dLook (d.map (fun kv => if kv.1 = k then (k, b) else kv)) k from rfl,
        if_neg he]
      apply ih
      unfold dHas at hhas ⊢
      rw [show dLook (kv :: d) k = if kv.1 = k then some kv.2 else dLook d k from rfl,
        if_neg he] at hhas
      exact hhas

theorem dLook_append_some (d1 d2 : Chans) (k : String) (b : Bucket)
    (h : dLook d1 k = some b) : dLook (d1 ++ d2) k = some b := by
  induction d1 with
  | nil => cases h
  | cons kv d ih =>
    rw [List.cons_append]
    rw [show dLook (kv :: d) k = if kv.1 = k then some kv.2 else dLook d k from rfl] at h
    rw [show dLook (kv :: (d ++ d2)) k
      = if kv.1 = k then some kv.2 else dLook (d ++ d2) k from rfl]
    by_cases he : kv.1 = k
    · rw [if_pos he] at h ⊢
      exact h
    · rw [if_neg he] at h ⊢
      exact ih h

theorem dGet_addD_self (d : Chans) (h : HandlerD) (k : String) :
    h ∈ dGet (addD d h k) k := by
  unfold addD
  by_cases hhas : dHas d k
  · rw [if_pos hhas]
    by_cases hmem : h ∈ dGet d k
    · rw [if_pos hmem]
      exact hmem
    · rw [if_neg hmem]
      unfold dGet
      rw [dLook_dSet_self d k _ hhas]
      show h ∈ sortF (dGet d k ++ [h])
      exact (mem_sortF _ _).mpr (List.mem_append.mpr
        (Or.inr (List.mem_singleton.mpr rfl)))
  · rw [if_neg hhas]
    have hnone : dLook d k = Option.none := by
      unfold dHas at hhas
      cases hl : dLook d k with
      | none => rfl
      | some b => rw [hl] at hhas; exact absurd rfl hhas
    unfold dGet
    rw [dLook_append _ _ _ hnone,
      show dLook [(k, [h])] k = if k = k then some [h] else Option.none from rfl,
      if_pos rfl]
    exact List.mem_singleton.mpr rfl

theorem dGet_addD_preserve (d : Chans) (h h2 : HandlerD) (k k2 : String)
    (hm : h ∈ dGet d k) : h ∈ dGet (addD d h2 k2) k := by
  unfold addD
  by_cases hhas : dHas d k2
  · rw [if_pos hhas]
    by_cases hmem : h2 ∈ dGet d k2
    · rw [if_pos hmem]
      exact hm
    · rw [if_neg hmem]
      by_cases hk : k = k2
      · subst hk
        unfold dGet
        rw [dLook_dSet_self d k _ hhas]
        show h ∈ sortF (dGet d k ++ [h2])
        exact (mem_sortF _ _).mpr (List.mem_append.mpr (Or.inl hm))
      · unfold dGet
        rw [dLook_dSet_ne d k2 _ k hk]
        exact hm
  · rw [if_neg hhas]
    unfold dGet
    cases hl : dLook d k with
    | none =>
      unfold dGet at hm
      rw [hl] at hm
      simp at hm
    | some b =>
      unfold dGet at hm
      rw [hl] at hm
      rw [dLook_append_some d _ k b hl]
      exact hm

theorem addPairsD_preserve (ps : List (HandlerD × String)) :
    ∀ (d : Chans) (h : HandlerD) (k : String),
      h ∈ dGet d k → h ∈ dGet (addPairsD d ps) k := by
  induction ps with
  | nil => intro d h k hm; exact hm
  | cons q ps ih =>
    intro d h k hm
    exact ih _ _ _ (dGet_addD_preserve d h q.1 k q.2 hm)

theorem addPairsD_mem (ps : List (HandlerD × String)) :
    ∀ (d : Chans), ∀ q ∈ ps, q.1 ∈ dGet (addPairsD d ps) q.2 := by
  induction ps with
  | nil => intro d q hq; cases hq
  | cons q0 ps ih =>
    intro d q hq
    rcases List.mem_cons.mp hq with rfl | hq2
    · show q.1 ∈ dGet (addPairsD (addD d q.1 q.2) ps) q.2
      exact addPairsD_preserve ps _ _ _ (dGet_addD_self d q.1 q.2)
    · exact ih (addD d q0.1 q0.2) q hq2

theorem foldl_congr_mem {α β : Type _} (l : List α) (f g : β → α → β) :
    ∀ (b : β), (∀ acc : β, ∀ a ∈ l, f acc a = g acc a) →
      l.foldl f b = l.foldl g b := by
  induction l with
  | nil => intro b _; rfl
  | cons a l ih =>
    intro b h
    simp only [List.foldl_cons]
    rw [h b a (List.mem_cons_self _ _)]
    exact ih _ (fun acc a2 ha2 => h acc a2 (List.mem_cons_of_mem _ ha2))

theorem mem_foldl_setAddN (a : Nat) (S : List Nat) : ∀ (t : List Nat),
    a ∈ t ∨ a ∈ S → a ∈ S.foldl setAddN t := by
  induction S with
  | nil =>
    intro t h
    rcases h with h | h
    · exact h
    · cases h
  | cons s S ih =>
    intro t h
    simp only [List.foldl_cons]
    apply ih
    rcases h with h | h
    · exact Or.inl ((mem_setAddN _ _ _).mpr (Or.inl h))
    · rcases List.mem_cons.mp h with rfl | h2
      · exact Or.inl ((mem_setAddN _ _ _).mpr (Or.inr rfl))
      · exact Or.inr h2

theorem foldl_addPairsD_preserve {α : Type _} (l : List α)
    (F : α → List (HandlerD × String)) :
    ∀ (d : Chans) (h : HandlerD) (k : String),
      h ∈ dGet d k → h ∈ dGet (l.foldl (fun d a => addPairsD d (F a)) d) k := by
  induction l with
  | nil => intro d h k hm; exact hm
  | cons a l ih =>
    intro d h k hm
    exact ih _ _ _ (addPairsD_preserve _ _ _ _ hm)

theorem foldl_addPairsD_mem {α : Type _} (l : List α)
    (F : α → List (HandlerD × String)) :
    ∀ (d : Chans) (a : α), a ∈ l → ∀ q ∈ F a,
      q.1 ∈ dGet (l.foldl (fun d a => addPairsD d (F a)) d) q.2 := by
  induction l with
  | nil => intro d a ha; cases ha
  | cons a0 l ih =>
    intro d a ha q hq
    rcases List.mem_cons.mp ha with rfl | h2
    · exact foldl_addPairsD_preserve l F _ _ _ (addPairsD_mem (F a) d q hq)
    · exact ih _ a h2 q hq

theorem walkLoop_step_col (fuel : Nat) (w : World) (selfI x i : Nat)
    (children : List Nat) (stack : List (Nat × List Nat))
    (visited hidden : List Nat)
    (hv : x ∉ visited) (hp : hpred w selfI x hidden = true) :
    walkLoop (fuel + 1) w selfI x i children stack visited hidden
      = if hlt : i < children.length then
          (if (w (children.get ⟨i, hlt⟩)).comps.isEmpty then
            walkLoop fuel w selfI (children.get ⟨i, hlt⟩) (i + 1) children stack
              (visited ++ [x]) (hidden ++ [x])
          else
            walkLoop fuel w selfI (children.get ⟨i, hlt⟩) 0
              ((w (children.get ⟨i, hlt⟩)).comps) ((i + 1, children) :: stack)
              (visited ++ [x]) (hidden ++ [x]))
        else
          (match stack with
          | (i2, ch2) :: rest => walkLoop fuel w selfI x i2 ch2 rest
              (visited ++ [x]) (hidden ++ [x])
          | [] => hidden ++ [x]) := by
  simp only [walkLoop, if_neg hv, hp, if_true]

theorem walkLoop_step_skip (fuel : Nat) (w : World) (selfI x i : Nat)
    (children : List Nat) (stack : List (Nat × List Nat))
    (visited hidden : List Nat)
    (hv : x ∉ visited) (hp : hpred w selfI x hidden = false) :
    walkLoop (fuel + 1) w selfI x i children stack visited hidden
      = if hlt : i < children.length then
          (if (w (children.get ⟨i, hlt⟩)).comps.isEmpty then
            walkLoop fuel w selfI (children.get ⟨i, hlt⟩) (i + 1) children stack
              (visited ++ [x]) hidden
          else
            walkLoop fuel w selfI (children.get ⟨i, hlt⟩) 0
              ((w (children.get ⟨i, hlt⟩)).comps) ((i + 1, children) :: stack)
              (visited ++ [x]) hidden)
        else
          (match stack with
          | (i2, ch2) :: rest => walkLoop fuel w selfI x i2 ch2 rest
              (visited ++ [x]) hidden
          | [] => hidden) := by
  simp only [walkLoop, if_neg hv, hp, Bool.false_eq_true, if_false]

/-- The uniform phase of the hidden walk over a flat children list: the
remaining leaf children are visited and collected in order. -/
theorem walk_go (w : World) (selfI : Nat) (cs : List Nat)
    (hpredc : ∀ c ∈ cs, ∀ hid : List Nat, (∀ a ∈ hid, a ∈ cs) →
      hpred w selfI c hid = true)
    (hleafc : ∀ c ∈ cs, (w c).comps = []) :
    ∀ (rem : List Nat) (fuel i : Nat) (y : Nat) (visited hidden : List Nat),
      cs.drop i = rem → y ∈ cs →
      (∀ a ∈ y :: rem, a ∉ visited) → (y :: rem).Nodup →
      (∀ a ∈ rem, a ∈ cs) →
      (∀ a ∈ hidden, a ∈ cs) →
      walkLoop (fuel + rem.length + 1) w selfI y i cs [] visited hidden
        = hidden ++ y :: rem := by
  intro rem
  induction rem with
  | nil =>
    intro fuel i y visited hidden hdrop hy hvis hndyr hrm hhid
    rw [walkLoop_step_col _ w selfI y i cs [] visited hidden
      (hvis y (List.mem_cons_self _ _)) (hpredc y hy hidden hhid)]
    rw [dif_neg (by
      intro hlt
      have := List.drop_eq_nil_iff.mp hdrop
      omega)]
  | cons r rem2 ih =>
    intro fuel i y visited hidden hdrop hy hvis hndyr hrm hhid
    have hlt : i < cs.length := by
      by_contra hge
      rw [List.drop_eq_nil_of_le (by omega)] at hdrop
      cases hdrop
    have h2 : cs[i] :: cs.drop (i + 1) = r :: rem2 :=
      (List.drop_eq_getElem_cons hlt).symm.trans hdrop
    obtain ⟨hget, hdrop2⟩ := List.cons_eq_cons.mp h2
    have hyrem : y ∉ r :: rem2 := (List.nodup_cons.mp hndyr).1
    rw [show fuel + (r :: rem2).length + 1
      = fuel + rem2.length + 1 + 1 from by simp only [List.length_cons]; omega]
    rw [walkLoop_step_col _ w selfI y i cs [] visited hidden
      (hvis y (List.mem_cons_self _ _)) (hpredc y hy hidden hhid)]
    rw [dif_pos hlt]
    have hgete : cs.get ⟨i, hlt⟩ = r := by
      rw [List.get_eq_getElem]
      exact hget
    rw [hgete, hleafc r (hrm r (List.mem_cons_self _ _))]
    rw [if_pos (show ([] : List Nat).isEmpty = true from rfl)]
    rw [ih fuel (i + 1) r (visited ++ [y]) (hidden ++ [y]) hdrop2
      (hrm r (List.mem_cons_self _ _))
      (by
        intro a ha hmem
        rcases List.mem_append.mp hmem with h1 | h1
        · exact hvis a (List.mem_cons_of_mem _ ha) h1
        · exact hyrem ((List.mem_singleton.mp h1) ▸ ha))
      ((List.nodup_cons.mp hndyr).2)
      (fun a ha => hrm a (List.mem_cons_of_mem _ ha))
      (by
        intro a ha
        rcases List.mem_append.mp ha with h1 | h1
        · exact hhid a h1
        · rw [List.mem_singleton.mp h1]
          exact hy)]
    rw [List.append_assoc]
    rfl

/-- Iterated leaf registration: the fold `_registerHidden` performs over
the collected flat children, each registered into the root `p`. -/
theorem regFold (fuel : Nat) (x p : Nat) (hxp : x ≠ p) (cs : List Nat) :
    ∀ (w : World), (w p).mgr = p → (w x).mgr = p →
      cs.Nodup → x ∉ cs → p ∉ cs →
      (∀ ci ∈ cs, (w ci).comps = []) →
      (∀ j, j ∉ cs → j ≠ p →
        (cs.foldl (fun wa y => regW (fuel + 2) wa y ((wa x).mgr)) w) j = w j) ∧
      (∀ ci ∈ cs,
        (cs.foldl (fun wa y => regW (fuel + 2) wa y ((wa x).mgr)) w) ci
          = { w ci with mgr := p }) ∧
      (cs.foldl (fun wa y => regW (fuel + 2) wa y ((wa x).mgr)) w) p
        = { w p with
            hset := cs.foldl (fun l ci =>
              addPairsH l (ownPairs ((w ci).channel) ((w ci).ownH))) (w p).hset,
            chans := cs.foldl (fun d ci =>
              addPairsD d (ownPairs ((w ci).channel) ((w ci).ownH))) (w p).chans,
            comps := cs.foldl setAddN (w p).comps,
            queue := (w p).queue ++ cs.map (fun ci =>
              ("Registered", [ci, p], "registered",
                orChan ((w ci).channel) ((w p).channel))),
            ticks := cs.foldl (fun t ci =>
              (getTicksW w ci).foldl setAddN t) (w p).ticks } := by
  induction cs with
  | nil =>
    intro w hrootw hwx hnd hxcs hpcs hleafc
    refine ⟨fun j hj hjp => rfl, fun ci hci => absurd hci (List.not_mem_nil ci), ?_⟩
    simp only [List.foldl_nil, List.map_nil, List.append_nil]
  | cons c0 cr ih =>
    intro w hrootw hwx hnd hxcs hpcs hleafc
    have hc0 : c0 ∈ c0 :: cr := List.mem_cons_self _ _
    have hc0p : c0 ≠ p := fun he => hpcs (he ▸ hc0)
    have hc0x : c0 ≠ x := fun he => hxcs (he ▸ hc0)
    obtain ⟨hW1ne, hW1c, hW1p⟩ := leafReg fuel w c0 p hc0p hrootw (hleafc c0 hc0)
    simp only [List.foldl_cons]
    rw [hwx]
    set W1 : World := regW (fuel + 2) w c0 p with hW1def
    have hWrootp : (W1 p).mgr = p := by
      rw [hW1p]
      show (w p).mgr = p
      exact hrootw
    have hWx : (W1 x).mgr = p := by
      rw [hW1ne x (Ne.symm hc0x) hxp]
      exact hwx
    have hndr : cr.Nodup := (List.nodup_cons.mp hnd).2
    have hc0cr : c0 ∉ cr := (List.nodup_cons.mp hnd).1
    have hxcr : x ∉ cr := fun h => hxcs (List.mem_cons_of_mem _ h)
    have hpcr : p ∉ cr := fun h => hpcs (List.mem_cons_of_mem _ h)
    have hW1eq : ∀ ci ∈ cr, W1 ci = w ci := by
      intro ci hci
      exact hW1ne ci (fun he => hc0cr (he ▸ hci)) (fun he => hpcr (he ▸ hci))
    have hleafr : ∀ ci ∈ cr, (W1 ci).comps = [] := by
      intro ci hci
      rw [hW1eq ci hci]
      exact hleafc ci (List.mem_cons_of_mem _ hci)
    obtain ⟨ihne, ihc, ihp⟩ := ih W1 hWrootp hWx hndr hxcr hpcr hleafr
    refine ⟨?_, ?_, ?_⟩
    · intro j hjcs hjp
      have hjcr : j ∉ cr := fun h => hjcs (List.mem_cons_of_mem _ h)
      have hjc0 : j ≠ c0 := fun he => hjcs (by rw [he]; exact hc0)
      rw [ihne j hjcr hjp, hW1ne j hjc0 hjp]
    · intro ci hci
      rcases List.mem_cons.mp hci with rfl | hci2
      · rw [ihne ci hc0cr hc0p, hW1c]
      · rw [ihc ci hci2, hW1eq ci hci2]
    · rw [ihp]
      have hgtc : ∀ ci ∈ cr, getTicksW W1 ci = getTicksW w ci := by
        intro ci hci
        apply getTicksW_congr
        · rw [hW1eq ci hci]
        · rw [hW1eq ci hci]
        · rw [hW1eq ci hci]
        · rw [hW1eq ci hci]
        · intro cc
          by_cases hccc : cc = c0
          · rw [hccc, hW1c]
          · by_cases hccp : cc = p
            · rw [hccp, hW1p]
            · rw [hW1ne cc hccc hccp]
      have hb6 : (W1 p).channel = (w p).channel := by rw [hW1p]
      have hf1 : cr.foldl (fun l ci =>
          addPairsH l (ownPairs ((W1 ci).channel) ((W1 ci).ownH))) ((W1 p).hset)
          = cr.foldl (fun l ci =>
            addPairsH l (ownPairs ((w ci).channel) ((w ci).ownH))) ((W1 p).hset) :=
        foldl_congr_mem cr _ _ _ (fun acc a ha => by rw [hW1eq a ha])
      have hf2 : cr.foldl (fun d ci =>
          addPairsD d (ownPairs ((W1 ci).channel) ((W1 ci).ownH))) ((W1 p).chans)
          = cr.foldl (fun d ci =>
            addPairsD d (ownPairs ((w ci).channel) ((w ci).ownH))) ((W1 p).chans) :=
        foldl_congr_mem cr _ _ _ (fun acc a ha => by rw [hW1eq a ha])
      have hf5 : cr.foldl (fun t ci =>
          (getTicksW W1 ci).foldl setAddN t) ((W1 p).ticks)
          = cr.foldl (fun t ci =>
            (getTicksW w ci).foldl setAddN t) ((W1 p).ticks) :=
        foldl_congr_mem cr _ _ _ (fun acc a ha => by rw [hgtc a ha])
      have hf4 : cr.map (fun ci => ("Registered", [ci, p], "registered",
          orChan ((W1 ci).channel) ((W1 p).channel)))
          = cr.map (fun ci => ("Registered", [ci, p], "registered",
            orChan ((w ci).channel) ((w p).channel))) := by
        apply List.map_congr_left
        intro a ha
        rw [hW1eq a ha, hb6]
      have hb1 : (W1 p).hset
          = addPairsH (w p).hset (ownPairs ((w c0).channel) ((w c0).ownH)) := by
        rw [hW1p]
      have hb2 : (W1 p).chans
          = addPairsD (w p).chans (ownPairs ((w c0).channel) ((w c0).ownH)) := by
        rw [hW1p]
      have hb3 : (W1 p).comps = setAddN (w p).comps c0 := by rw [hW1p]
      have hb4 : (W1 p).queue = (w p).queue ++ [("Registered", [c0, p], "registered",
          orChan ((w c0).channel) ((w p).channel))] := by
        rw [hW1p]
      have hb5 : (W1 p).ticks = (getTicksW w c0).foldl setAddN (w p).ticks := by
        rw [hW1p]
      rw [hf1, hf2, hf5, hf4, hb1, hb2, hb3, hb4, hb5, hW1p]
      simp only [List.foldl_cons, List.map_cons]
      rw [List.append_assoc]
      rfl

set_option maxHeartbeats 1600000 in
/-- C6: registering a component `x` whose children `cs` are all leaves
into a root manager `p`: the handlers of `x` and of every child land in
`p`'s channel index, every promoted child is recorded in `p`'s hidden
set and removed from `p`'s — not `x`'s — components set; `x`'s local
components set still holds all of `cs`. -/
theorem c6_register_subtree (fuel : Nat) (w : World) (x p : Nat) (cs : List Nat)
    (hxp : x ≠ p)
    (hroot : (w p).mgr = p)
    (hcomps : (w x).comps = cs)
    (hnd : cs.Nodup) (hxcs : x ∉ cs) (hpcs : p ∉ cs)
    (hcm : ∀ c ∈ cs, (w c).mgr = x)
    (hcleaf : ∀ c ∈ cs, (w c).comps = [])
    (hcpc : ∀ c ∈ cs, c ∉ (w p).comps) :
    (∀ j, j ≠ x → j ∉ cs → j ≠ p → regW (fuel + cs.length + 4) w x p j = w j) ∧
      regW (fuel + cs.length + 4) w x p x = { w x with mgr := p } ∧
      (∀ c ∈ cs, regW (fuel + cs.length + 4) w x p c = { w c with mgr := p }) ∧
      regW (fuel + cs.length + 4) w x p p
        = { w p with
            hset := cs.foldl (fun l ci =>
              addPairsH l (ownPairs ((w ci).channel) ((w ci).ownH)))
              (addPairsH (w p).hset (ownPairs ((w x).channel) ((w x).ownH))),
            chans := cs.foldl (fun d ci =>
              addPairsD d (ownPairs ((w ci).channel) ((w ci).ownH)))
              (addPairsD (w p).chans (ownPairs ((w x).channel) ((w x).ownH))),
            comps := setAddN (w p).comps x,
            hidden := cs.foldl setAddN (w p).hidden,
            queue := (w p).queue
              ++ ("Registered", [x, p], "registered",
                  orChan ((w x).channel) ((w p).channel))
                :: cs.map (fun ci => ("Registered", [ci, p], "registered",
                  orChan ((w ci).channel) ((w p).channel))),
            ticks := (getTicksW w x).foldl setAddN
              (cs.foldl (fun t ci => (getTicksW w ci).foldl setAddN t)
                (w p).ticks) } ∧
      (∀ q ∈ ownPairs ((w x).channel) ((w x).ownH),
        q.1 ∈ dGet ((regW (fuel + cs.length + 4) w x p p).chans) q.2) ∧
      (∀ c ∈ cs, ∀ q ∈ ownPairs ((w c).channel) ((w c).ownH),
        q.1 ∈ dGet ((regW (fuel + cs.length + 4) w x p p).chans) q.2) ∧
      (∀ c ∈ cs, c ∈ (regW (fuel + cs.length + 4) w x p p).hidden
        ∧ c ∉ (regW (fuel + cs.length + 4) w x p p).comps) := by
  have hpx : p ≠ x := Ne.symm hxp
  suffices main : ∀ j, regW (fuel + cs.length + 4) w x p j
      = (if j = p then
          { w p with
            hset := cs.foldl (fun l ci =>
              addPairsH l (ownPairs ((w ci).channel) ((w ci).ownH)))
              (addPairsH (w p).hset (ownPairs ((w x).channel) ((w x).ownH))),
            chans := cs.foldl (fun d ci =>
              addPairsD d (ownPairs ((w ci).channel) ((w ci).ownH)))
              (addPairsD (w p).chans (ownPairs ((w x).channel) ((w x).ownH))),
            comps := setAddN (w p).comps x,
            hidden := cs.foldl setAddN (w p).hidden,
            queue := (w p).queue
              ++ ("Registered", [x, p], "registered",
                  orChan ((w x).channel) ((w p).channel))
                :: cs.map (fun ci => ("Registered", [ci, p], "registered",
                  orChan ((w ci).channel) ((w p).channel))),
            ticks := (getTicksW w x).foldl setAddN
              (cs.foldl (fun t ci => (getTicksW w ci).foldl setAddN t)
                (w p).ticks) }
        else if j ∈ cs then { w j with mgr := p }
        else if j = x then { w x with mgr := p }
        else w j) by
    have hchp : (regW (fuel + cs.length + 4) w x p p).chans
        = cs.foldl (fun d ci =>
            addPairsD d (ownPairs ((w ci).channel) ((w ci).ownH)))
          (addPairsD (w p).chans (ownPairs ((w x).channel) ((w x).ownH))) := by
      rw [main p, if_pos rfl]
    refine ⟨?_, ?_, ?_, ?_, ?_, ?_, ?_⟩
    · intro j hjx hjcs hjp
      rw [main j, if_neg hjp, if_neg hjcs, if_neg hjx]
    · rw [main x, if_neg hxp, if_neg hxcs, if_pos rfl]
    · intro c hc
      have hcp : c ≠ p := fun he => hpcs (he ▸ hc)
      rw [main c, if_neg hcp, if_pos hc]
    · rw [main p, if_pos rfl]
    · intro q hq
      rw [hchp]
      exact foldl_addPairsD_preserve cs
        (fun ci => ownPairs ((w ci).channel) ((w ci).ownH)) _ _ _
        (addPairsD_mem _ _ q hq)
    · intro c hc q hq
      rw [hchp]
      exact foldl_addPairsD_mem cs
        (fun ci => ownPairs ((w ci).channel) ((w ci).ownH)) _ c hc q hq
    · intro c hc
      have hh : (regW (fuel + cs.length + 4) w x p p).hidden
          = cs.foldl setAddN (w p).hidden := by
        rw [main p, if_pos rfl]
      have hco : (regW (fuel + cs.length + 4) w x p p).comps
          = setAddN (w p).comps x := by
        rw [main p, if_pos rfl]
      constructor
      · rw [hh]
        exact mem_foldl_setAddN c cs _ (Or.inr hc)
      · rw [hco]
        intro hm
        rcases (mem_setAddN _ _ _).mp hm with h1 | h2
        · exact hcpc c hc h1
        · exact hxcs (h2 ▸ hc)
  simp only [regW]
  rw [double_fold_pairs p ((w x).channel) ((w x).ownH) w]
  obtain ⟨h1ne, h1p⟩ := mAddW_fold_pairs p (ownPairs (w x).channel (w x).ownH) w
  set w1 : World :=
    (ownPairs (w x).channel (w x).ownH).foldl (fun wa q => mAddW wa p q.1 q.2) w
  have h1x : w1 x = w x := h1ne x hxp
  set w2 : World := upd w1 x { w1 x with mgr := p }
  have h2x : w2 x = { w x with mgr := p } := by
    rw [show w2 x = { w1 x with mgr := p } from upd_same w1 x _, h1x]
  have h2p : w2 p = w1 p := upd_ne w1 x p _ hpx
  have h2ne : ∀ j, j ≠ x → j ≠ p → w2 j = w j := by
    intro j hjx hjp
    rw [show w2 j = w1 j from upd_ne w1 x j _ hjx, h1ne j hjp]
  rw [if_pos hpx]
  set w3 : World := upd w2 p { w2 p with comps := setAddN (w2 p).comps x }
  have h3p : w3 p = { w p with
      hset := addPairsH (w p).hset (ownPairs (w x).channel (w x).ownH),
      chans := addPairsD (w p).chans (ownPairs (w x).channel (w x).ownH),
      comps := setAddN (w p).comps x } := by
    rw [show w3 p = { w2 p with comps := setAddN (w2 p).comps x } from upd_same w2 p _,
      h2p, h1p]
  have h3x : w3 x = { w x with mgr := p } := by
    rw [show w3 x = w2 x from upd_ne w2 p x _ hxp, h2x]
  have h3ne : ∀ j, j ≠ x → j ≠ p → w3 j = w j := by
    intro j hjx hjp
    rw [show w3 j = w2 j from upd_ne w2 p j _ hjp, h2ne j hjx hjp]
  have h3xc : (w3 x).channel = (w x).channel := by rw [h3x]
  have h3pc : (w3 p).channel = (w p).channel := by rw [h3p]
  have hpush : pushW (fuel + cs.length + 3 + 1) w3 x
      ("Registered", [x, p], "registered", (w3 x).channel)
      = upd w3 p { w3 p with queue := (w3 p).queue
          ++ [("Registered", [x, p], "registered",
              orChan ((w3 x).channel) ((w3 p).channel))] } := by
    have hxm : (w3 x).mgr = p := by rw [h3x]
    have hpm : (w3 p).mgr = p := by rw [h3p]; exact hroot
    simp only [pushW, hxm, hpm]
    rw [reTarget_eq, orChan_same, reTarget_eq]
    rw [if_neg hpx, if_pos trivial]
  rw [hpush, h3xc, h3pc]
  set item1 : WQI := ("Registered", [x, p], "registered",
    orChan ((w x).channel) ((w p).channel))
  set w4 : World := upd w3 p { w3 p with queue := (w3 p).queue ++ [item1] }
  have h4p : w4 p = { w p with
      hset := addPairsH (w p).hset (ownPairs (w x).channel (w x).ownH),
      chans := addPairsD (w p).chans (ownPairs (w x).channel (w x).ownH),
      comps := setAddN (w p).comps x,
      queue := (w p).queue ++ [item1] } := by
    rw [show w4 p = { w3 p with queue := (w3 p).queue ++ [item1] } from upd_same w3 p _,
      h3p]
  have h4x : w4 x = { w x with mgr := p } := by
    rw [show w4 x = w3 x from upd_ne w3 p x _ hxp, h3x]
  have h4ne : ∀ j, j ≠ x → j ≠ p → w4 j = w j := by
    intro j hjx hjp
    rw [show w4 j = w3 j from upd_ne w3 p j _ hjp, h3ne j hjx hjp]
  have hw4eq : ∀ ci ∈ cs, w4 ci = w ci := fun ci hci =>
    h4ne ci (fun he => hxcs (he ▸ hci)) (fun he => hpcs (he ▸ hci))
  -- unfold the hidden registration
  simp only [registerHidden]
  have hw4xc : (w4 x).comps = cs := by
    rw [h4x]
    show (w x).comps = cs
    exact hcomps
  rw [hw4xc]
  -- the walk collects exactly the children, in order
  have e2 : (w4 x).mgr = p := by rw [h4x]
  have hleafc4 : ∀ c2 ∈ cs, (w4 c2).comps = [] := by
    intro c2 hc2
    rw [hw4eq c2 hc2]
    exact hcleaf c2 hc2
  have hpredc : ∀ c2 ∈ cs, ∀ hid : List Nat, (∀ a ∈ hid, a ∈ cs) →
      hpred w4 x c2 hid = true := by
    intro c2 hc2 hid hhid
    unfold hpred
    have e1 : (w4 c2).mgr = x := by
      rw [hw4eq c2 hc2]
      exact hcm c2 hc2
    have e3 : (w4 p).comps = setAddN (w p).comps x := by rw [h4p]
    rw [e1, e2, e3]
    have e4 : (setAddN (w p).comps x).contains c2 = false := by
      cases hcc : (setAddN (w p).comps x).contains c2 with
      | false => rfl
      | true =>
        rcases (mem_setAddN _ _ _).mp (List.elem_iff.mp hcc) with hcc1 | hcc2
        · exact absurd hcc1 (hcpc c2 hc2)
        · exact absurd (hcc2 ▸ hc2) hxcs
    have e5 : hid.contains x = false := by
      cases hcc : hid.contains x with
      | false => rfl
      | true => exact absurd (hhid x (List.elem_iff.mp hcc)) hxcs
    rw [e4, e5]
    have ec2x : c2 ≠ x := fun he => hxcs (he ▸ hc2)
    simp [ec2x]
  have hpredx : hpred w4 x x [] = false := by
    unfold hpred
    simp
  have hwalk : walkLoop (fuel + cs.length + 2 + 1) w4 x x 0 cs [] [] [] = cs := by
    rcases hcs2 : cs with _ | ⟨c0, cr⟩
    · exact walk_nil _ w4 x
    · subst hcs2
      rw [walkLoop_step_skip _ w4 x x 0 (c0 :: cr) [] [] []
        (List.not_mem_nil x) hpredx]
      rw [dif_pos (show 0 < (c0 :: cr).length from by simp)]
      rw [show (c0 :: cr).get ⟨0, by simp⟩ = c0 from rfl]
      rw [hleafc4 c0 (List.mem_cons_self _ _)]
      rw [if_pos (show ([] : List Nat).isEmpty = true from rfl)]
      rw [show fuel + (c0 :: cr).length + 2
        = (fuel + 2) + cr.length + 1 from by simp only [List.length_cons]; omega]
      rw [walk_go w4 x (c0 :: cr) hpredc hleafc4 cr (fuel + 2) 1 c0 ([] ++ [x]) []
        rfl (List.mem_cons_self _ _)
        (by
          intro a ha hmem
          simp only [List.nil_append, List.mem_singleton] at hmem
          exact hxcs (hmem ▸ ha))
        hnd
        (fun a ha => List.mem_cons_of_mem _ ha)
        (fun a ha => absurd ha (List.not_mem_nil a))]
      rfl
  rw [hwalk]
  -- the collected children fold: iterated leaf registration into the root
  have hW4rootp : (w4 p).mgr = p := by
    rw [h4p]
    show (w p).mgr = p
    exact hroot
  obtain ⟨hr1ne, hr1c, hr1p⟩ :=
    regFold (fuel + cs.length) x p hxp cs w4 hW4rootp e2 hnd hxcs hpcs hleafc4
  set r1 : World :=
    cs.foldl (fun wa y => regW (fuel + cs.length + 2) wa y ((wa x).mgr)) w4
  have hgtc : ∀ ci ∈ cs, getTicksW w4 ci = getTicksW w ci := by
    intro ci hci
    apply getTicksW_congr
    · rw [hw4eq ci hci]
    · rw [hw4eq ci hci]
    · rw [hw4eq ci hci]
    · rw [hw4eq ci hci]
    · intro cc
      by_cases hccx : cc = x
      · rw [hccx, h4x]
      · by_cases hccp : cc = p
        · rw [hccp, h4p]
        · rw [h4ne cc hccx hccp]
  have hbch : (w4 p).channel = (w p).channel := by rw [h4p]
  have hw5x : r1 x = { w x with mgr := p } := by
    rw [hr1ne x hxcs hxp, h4x]
  have hw5c : ∀ ci ∈ cs, r1 ci = { w ci with mgr := p } := by
    intro ci hci
    rw [hr1c ci hci, hw4eq ci hci]
  have hw5ne : ∀ j, j ≠ x → j ∉ cs → j ≠ p → r1 j = w j := by
    intro j hjx hjcs hjp
    rw [hr1ne j hjcs hjp, h4ne j hjx hjp]
  have hw5p : r1 p = { w p with
      hset := cs.foldl (fun l ci =>
        addPairsH l (ownPairs ((w ci).channel) ((w ci).ownH)))
        (addPairsH (w p).hset (ownPairs ((w x).channel) ((w x).ownH))),
      chans := cs.foldl (fun d ci =>
        addPairsD d (ownPairs ((w ci).channel) ((w ci).ownH)))
        (addPairsD (w p).chans (ownPairs ((w x).channel) ((w x).ownH))),
      comps := cs.foldl setAddN (setAddN (w p).comps x),
      queue := ((w p).queue ++ [item1]) ++ cs.map (fun ci =>
        ("Registered", [ci, p], "registered",
          orChan ((w ci).channel) ((w p).channel))),
      ticks := cs.foldl (fun t ci => (getTicksW w ci).foldl setAddN t)
        (w p).ticks } := by
    rw [hr1p]
    have hf1 : cs.foldl (fun l ci =>
        addPairsH l (ownPairs ((w4 ci).channel) ((w4 ci).ownH))) ((w4 p).hset)
        = cs.foldl (fun l ci =>
          addPairsH l (ownPairs ((w ci).channel) ((w ci).ownH))) ((w4 p).hset) :=
      foldl_congr_mem cs _ _ _ (fun acc a ha => by rw [hw4eq a ha])
    have hf2 : cs.foldl (fun d ci =>
        addPairsD d (ownPairs ((w4 ci).channel) ((w4 ci).ownH))) ((w4 p).chans)
        = cs.foldl (fun d ci =>
          addPairsD d (ownPairs ((w ci).channel) ((w ci).ownH))) ((w4 p).chans) :=
      foldl_congr_mem cs _ _ _ (fun acc a ha => by rw [hw4eq a ha])
    have hf5 : cs.foldl (fun t ci =>
        (getTicksW w4 ci).foldl setAddN t) ((w4 p).ticks)
        = cs.foldl (fun t ci =>
          (getTicksW w ci).foldl setAddN t) ((w4 p).ticks) :=
      foldl_congr_mem cs _ _ _ (fun acc a ha => by rw [hgtc a ha])
    have hf4 : cs.map (fun ci => ("Registered", [ci, p], "registered",
        orChan ((w4 ci).channel) ((w4 p).channel)))
        = cs.map (fun ci => ("Registered", [ci, p], "registered",
          orChan ((w ci).channel) ((w p).channel))) := by
      apply List.map_congr_left
      intro a ha
      rw [hw4eq a ha, hbch]
    have hb1 : (w4 p).hset
        = addPairsH (w p).hset (ownPairs ((w x).channel) ((w x).ownH)) := by
      rw [h4p]
    have hb2 : (w4 p).chans
        = addPairsD (w p).chans (ownPairs ((w x).channel) ((w x).ownH)) := by
      rw [h4p]
    have hb3 : (w4 p).comps = setAddN (w p).comps x := by rw [h4p]
    have hb4 : (w4 p).queue = (w p).queue ++ [item1] := by rw [h4p]
    have hb5 : (w4 p).ticks = (w p).ticks := by rw [h4p]
    rw [hf1, hf2, hf5, hf4, hb1, hb2, hb3, hb4, hb5, h4p]
  -- the hidden set update
  have e6 : (r1 x).mgr = p := by rw [hw5x]
  rw [e6]
  set r2 : World := upd r1 p
    { r1 p with hidden := cs.foldl setAddN ((r1 p).hidden) }
  have hc5hid : (r1 p).hidden = (w p).hidden := by rw [hw5p]
  have hw6p : r2 p = { w p with
      hset := cs.foldl (fun l ci =>
        addPairsH l (ownPairs ((w ci).channel) ((w ci).ownH)))
        (addPairsH (w p).hset (ownPairs ((w x).channel) ((w x).ownH))),
      chans := cs.foldl (fun d ci =>
        addPairsD d (ownPairs ((w ci).channel) ((w ci).ownH)))
        (addPairsD (w p).chans (ownPairs ((w x).channel) ((w x).ownH))),
      comps := cs.foldl setAddN (setAddN (w p).comps x),
      hidden := cs.foldl setAddN (w p).hidden,
      queue := ((w p).queue ++ [item1]) ++ cs.map (fun ci =>
        ("Registered", [ci, p], "registered",
          orChan ((w ci).channel) ((w p).channel))),
      ticks := cs.foldl (fun t ci => (getTicksW w ci).foldl setAddN t)
        (w p).ticks } := by
    rw [show r2 p = { r1 p with hidden := cs.foldl setAddN ((r1 p).hidden) }
      from upd_same r1 p _, hc5hid, hw5p]
  have hw6x : r2 x = { w x with mgr := p } := by
    rw [show r2 x = r1 x from upd_ne r1 p x _ hxp, hw5x]
  have hw6c : ∀ ci ∈ cs, r2 ci = { w ci with mgr := p } := by
    intro ci hci
    rw [show r2 ci = r1 ci from upd_ne r1 p ci _ (fun he => hpcs (he ▸ hci)),
      hw5c ci hci]
  have hw6ne : ∀ j, j ≠ x → j ∉ cs → j ≠ p → r2 j = w j := by
    intro j hjx hjcs hjp
    rw [show r2 j = r1 j from upd_ne r1 p j _ hjp, hw5ne j hjx hjcs hjp]
  have e7 : (r2 x).mgr = p := by rw [hw6x]
  have e8 : (r2 p).mgr = p := by
    rw [hw6p]
    show (w p).mgr = p
    exact hroot
  rw [e7, e8]
  have hcond : ¬(p ≠ p) := fun hcc => hcc rfl
  rw [if_neg hcond]
  -- project the pair and clean the root components
  rw [show ((r2, cs).1 : World) = r2 from rfl,
    show ((r2, cs).2 : List Nat) = cs from rfl]
  rw [e7]
  have e9 : (r2 p).comps = cs.foldl setAddN (setAddN (w p).comps x) := by
    rw [hw6p]
  have e10 : (cs.foldl setAddN (setAddN (w p).comps x)).filter
      (fun a => !(cs.contains a)) = setAddN (w p).comps x := by
    rw [filter_foldl_setAddN _ _ _ (fun a ha => by
      have hc : cs.contains a = true := List.elem_iff.mpr ha
      rw [hc]
      rfl)]
    apply List.filter_eq_self.mpr
    intro a ha
    have hc : cs.contains a = false := by
      cases hcc : cs.contains a with
      | false => rfl
      | true =>
        have hacs : a ∈ cs := List.elem_iff.mp hcc
        rcases (mem_setAddN _ _ _).mp ha with ha1 | ha2
        · exact absurd ha1 (hcpc a hacs)
        · exact absurd (ha2 ▸ hacs) hxcs
    rw [hc]
    rfl
  rw [e9, e10]
  set r3 : World := upd r2 p { r2 p with comps := setAddN (w p).comps x }
  have hw7p : r3 p = { w p with
      hset := cs.foldl (fun l ci =>
        addPairsH l (ownPairs ((w ci).channel) ((w ci).ownH)))
        (addPairsH (w p).hset (ownPairs ((w x).channel) ((w x).ownH))),
      chans := cs.foldl (fun d ci =>
        addPairsD d (ownPairs ((w ci).channel) ((w ci).ownH)))
        (addPairsD (w p).chans (ownPairs ((w x).channel) ((w x).ownH))),
      comps := setAddN (w p).comps x,
      hidden := cs.foldl setAddN (w p).hidden,
      queue := ((w p).queue ++ [item1]) ++ cs.map (fun ci =>
        ("Registered", [ci, p], "registered",
          orChan ((w ci).channel) ((w p).channel))),
      ticks := cs.foldl (fun t ci => (getTicksW w ci).foldl setAddN t)
        (w p).ticks } := by
    rw [show r3 p = { r2 p with comps := setAddN (w p).comps x }
      from upd_same r2 p _, hw6p]
  have hw7x : r3 x = { w x with mgr := p } := by
    rw [show r3 x = r2 x from upd_ne r2 p x _ hxp, hw6x]
  have hw7c : ∀ ci ∈ cs, r3 ci = { w ci with mgr := p } := by
    intro ci hci
    rw [show r3 ci = r2 ci from upd_ne r2 p ci _ (fun he => hpcs (he ▸ hci)),
      hw6c ci hci]
  have hw7ne : ∀ j, j ≠ x → j ∉ cs → j ≠ p → r3 j = w j := by
    intro j hjx hjcs hjp
    rw [show r3 j = r2 j from upd_ne r2 p j _ hjp, hw6ne j hjx hjcs hjp]
  -- the final tick merge of the outer register call
  have e11 : (r3 x).mgr = p := by rw [hw7x]
  rw [e11]
  have hgt7 : getTicksW r3 x = getTicksW w x := by
    apply getTicksW_congr
    · rw [hw7x]
    · rw [hw7x]
    · rw [hw7x]
    · rw [hw7x]
    · intro cc
      by_cases hccx : cc = x
      · rw [hccx, hw7x]
      · by_cases hcccs : cc ∈ cs
        · rw [hw7c cc hcccs]
        · by_cases hccp : cc = p
          · rw [hccp, hw7p]
          · rw [hw7ne cc hccx hcccs hccp]
  rw [hgt7]
  intro j
  by_cases hjp : j = p
  · subst hjp
    rw [upd_same, if_pos rfl]
    have hc7t : (r3 j).ticks
        = cs.foldl (fun t ci => (getTicksW w ci).foldl setAddN t) (w j).ticks := by
      rw [hw7p]
    rw [hc7t, hw7p]
    show ({ w j with
      hset := cs.foldl (fun l ci =>
        addPairsH l (ownPairs ((w ci).channel) ((w ci).ownH)))
        (addPairsH (w j).hset (ownPairs ((w x).channel) ((w x).ownH))),
      chans := cs.foldl (fun d ci =>
        addPairsD d (ownPairs ((w ci).channel) ((w ci).ownH)))
        (addPairsD (w j).chans (ownPairs ((w x).channel) ((w x).ownH))),
      comps := setAddN (w j).comps x,
      hidden := cs.foldl setAddN (w j).hidden,
      queue := ((w j).queue ++ [item1]) ++ cs.map (fun ci =>
        ("Registered", [ci, j], "registered",
          orChan ((w ci).channel) ((w j).channel))),
      ticks := (getTicksW w x).foldl setAddN
        (cs.foldl (fun t ci => (getTicksW w ci).foldl setAddN t)
          (w j).ticks) } : Comp) = _
    rw [List.append_assoc]
    rfl
  · rw [upd_ne _ _ _ _ hjp, if_neg hjp]
    by_cases hjcs : j ∈ cs
    · rw [if_pos hjcs]
      exact hw7c j hjcs
    · rw [if_neg hjcs]
      by_cases hjx : j = x
      · subst hjx
        rw [if_pos rfl]
        exact hw7x
      · rw [if_neg hjx, hw7ne j hjx hjcs hjp]

/-- C6 counterexample: after registering component 1 (with child 2)
into root 0, the promoted child 2 sits in the root's hidden set and was
removed from the root's components — but it is still in component 1's
local components set, contradicting the claimed removal from C. -/
theorem c6_counterexample :
    ((regW 20 wCex6 1 0) 0).hidden = [2] ∧ ((regW 20 wCex6 1 0) 1).comps = [2]
      ∧ ((regW 20 wCex6 1 0) 0).comps = [1] :=
  ⟨by decide, by decide, by decide⟩

/-- C6 witness: registering component 1 with leaf child 2 into root 0
re-targets the child's manager to the root, records the child in the
root's hidden set and keeps it out of the root's components. -/
theorem c6_witness :
    ((1 : Nat) ≠ 0 ∧ (wWit6 0).mgr = 0 ∧ (wWit6 1).comps = [2]
      ∧ ([2] : List Nat).Nodup ∧ (1 : Nat) ∉ ([2] : List Nat)
      ∧ (0 : Nat) ∉ ([2] : List Nat)
      ∧ (∀ c ∈ ([2] : List Nat), (wWit6 c).mgr = 1)
      ∧ (∀ c ∈ ([2] : List Nat), (wWit6 c).comps = [])
      ∧ (∀ c ∈ ([2] : List Nat), c ∉ (wWit6 0).comps)) ∧
    regW 24 wWit6 1 0 2 = { wWit6 2 with mgr := 0 } ∧
    2 ∈ (regW 24 wWit6 1 0 0).hidden ∧ 2 ∉ (regW 24 wWit6 1 0 0).comps :=
  ⟨by decide,
    (c6_register_subtree 19 wWit6 1 0 [2] (by decide) (by decide) (by decide)
      (by decide) (by decide) (by decide) (by decide) (by decide)
      (by decide)).2.2.1 2 (by decide),
    (c6_register_subtree 19 wWit6 1 0 [2] (by decide) (by decide) (by decide)
      (by decide) (by decide) (by decide) (by decide) (by decide)
      (by decide)).2.2.2.2.2.2 2 (by decide)⟩
